import Mathlib
set_option autoImplicit false
set_option maxRecDepth 8000
namespace Shai
/-!
Shallow embedding of the terminal table/selection engine of the `shai`
repository (files `shai/util/ansi.py`, `shai/ui/table.py`, `shai/ui/select.py`).
Strings are modelled as `List Char`; Python integers as `Nat`/`Int`.
-/

/-! ### ANSI escape recognition (`shai/util/ansi.py`)

`ANSI_RE = re.compile(r"\x1b\[[0-9;]*m")`.  A match is ESC, a bracket,
a possibly empty run of digits or semicolons, then the letter m.  The regex
is deterministic: the parameter run is the maximal run of `[0-9;]` characters
and the match succeeds exactly when that run is followed by the letter m.
-/

def escChar : Char := Char.ofNat 27

def isParamChar (c : Char) : Bool := c.isDigit || c == ';'

/-- Attempt to match `ANSI_RE` at the front of `s`; on success return the
matched chunk and the remainder of the string. -/
def matchAnsi (s : List Char) : Option (List Char × List Char) :=
  match s with
  | a :: b :: rest =>
    if a = escChar ∧ b = '[' then
      match rest.dropWhile isParamChar with
      | c :: tl =>
        if c = 'm' then
          some (escChar :: '[' :: (rest.takeWhile isParamChar ++ ['m']), tl)
        else none
      | [] => none
    else none
  | _ => none

/-- A token of the ANSI scan: a whole matched escape chunk, or one ordinary
character. -/
inductive Tok where
  | esc (cs : List Char)
  | chr (c : Char)
deriving DecidableEq, Repr

/-- Fuel-indexed left-to-right scan of a string by `ANSI_RE`.  The fuel is
only a structural-recursion device; `tokenize` below always supplies enough. -/
def tokenizeF : Nat → List Char → List Tok
  | 0, _ => []
  | fuel + 1, s =>
    match matchAnsi s with
    | some cr => .esc cr.1 :: tokenizeF fuel cr.2
    | none =>
      match s with
      | [] => []
      | a :: tl => .chr a :: tokenizeF fuel tl

/-- Left-to-right scan of the string by `ANSI_RE`, as performed by both
`ANSI_RE.sub` (in `visible_len` / `strip_ansi`) and the copy loop of
`crop_visible`: at each position, a matched escape is consumed whole,
otherwise one character is consumed. -/
def tokenize (s : List Char) : List Tok := tokenizeF s.length s

/-- Concatenation of the characters of a token list. -/
def flattenToks (ts : List Tok) : List Char :=
  ts.flatMap (fun t => match t with | .esc cs => cs | .chr c => [c])

/-- Number of ordinary (visible) characters in a token list. -/
def chrCount (ts : List Tok) : Nat :=
  (ts.filter (fun t => match t with | .esc _ => false | .chr _ => true)).length

/-- Characters that can appear in no position of an escape sequence other
than the first: not a parameter character, not `m`, not `[`, not ESC. -/
def safeChar (c : Char) : Prop :=
  isParamChar c = false ∧ c ≠ 'm' ∧ c ≠ '[' ∧ c ≠ escChar

/-! ### Visible-width text utilities (`shai/util/ansi.py`) -/

/-- Model of `strip_ansi` / `ANSI_RE.sub("", s)`: remove every matched escape
sequence, keeping all other characters. -/
def stripAnsi (s : List Char) : List Char :=
  (tokenize s).flatMap (fun t => match t with | .esc _ => [] | .chr c => [c])

/-- Model of `visible_len(s) = len(ANSI_RE.sub("", s))`. -/
def visLen (s : List Char) : Nat := (stripAnsi s).length

def ellipsisChar : Char := '…'

/-- The copy loop of `crop_visible`: it walks the string exactly in
tokenization order (a matched escape is appended whole via `m.group(0)` and
skipped, otherwise one character is appended and counted), stopping once
`vis` reaches `width`. -/
def cropLoop (width : Nat) : List Tok → Nat → List Tok
  | [], _ => []
  | t :: ts, vis =>
    if vis < width then
      match t with
      | .esc cs => .esc cs :: cropLoop width ts vis
      | .chr c => .chr c :: cropLoop width ts (vis + 1)
    else []

/-- Fuel-indexed ellipsis pop loop; the fuel is a structural-recursion
device and `popLoop` below always supplies enough (each iteration shortens
the list by one). -/
def popLoopF : Nat → Nat → List Tok → List Tok
  | 0, _, out => out
  | fuel + 1, width, out =>
    if out ≠ [] ∧ width ≤ visLen (flattenToks out) then
      popLoopF fuel width out.dropLast
    else out

/-- The ellipsis pop loop of `crop_visible`:
`while out and visible_len("".join(out)) >= width: out.pop()`. -/
def popLoop (width : Nat) (out : List Tok) : List Tok :=
  popLoopF out.length width out

/-- Model of `crop_visible` from `shai/util/ansi.py`. -/
def cropVisible (s : List Char) (width : Nat) (ellipsis : Bool) : List Char :=
  if width = 0 then []
  else
    let out := cropLoop width (tokenize s) 0
    if ellipsis ∧ width < visLen s ∧ 2 ≤ width then
      flattenToks (popLoop width out) ++ [ellipsisChar]
    else flattenToks out

/-- Model of `ljust_visible` from `shai/util/ansi.py`:
pad with `max(0, width - visible_len(s))` spaces. -/
def ljustVisible (s : List Char) (width : Nat) : List Char :=
  s ++ List.replicate (width - visLen s) ' '

/-! ### Text wrapper (`_wrap_visible` in `shai/ui/table.py`) -/

/-- Whitespace for Python `str.split()` (modelled for the ASCII whitespace
characters: space, tab, newline, carriage return and relatives). -/
def isWs (c : Char) : Bool := c.isWhitespace

/-- Fuel-indexed `str.split()`: split on runs of whitespace, dropping empty
tokens; fuel is a structural-recursion device, always supplied adequately. -/
def splitWsF : Nat → List Char → List (List Char)
  | 0, _ => []
  | fuel + 1, s =>
    match s with
    | [] => []
    | c :: cs =>
      if isWs c then splitWsF fuel cs
      else (c :: cs.takeWhile (fun d => !isWs d)) ::
        splitWsF fuel (cs.dropWhile (fun d => !isWs d))

/-- Model of Python `text.split()` on whitespace. -/
def splitWs (s : List Char) : List (List Char) := splitWsF s.length s

/-- One step of the greedy accumulation loop of `_wrap_visible`: the state is
(finished lines, current line, current visible length). -/
def wrapStep (width : Nat) (st : List (List Char) × List Char × Nat)
    (w : List Char) : List (List Char) × List Char × Nat :=
  let lw := visLen w
  let add := (if st.2.1 = [] then 0 else 1) + lw
  if st.2.2 + add ≤ width then
    if st.2.1 = [] then (st.1, w, lw)
    else (st.1, st.2.1 ++ ' ' :: w, st.2.2 + add)
  else (st.1 ++ [st.2.1], w, lw)

/-- The epilogue of `_wrap_visible`: `if cur: lines.append(cur)` followed by
`return lines or [""]`. -/
def wrapFinish (st : List (List Char) × List Char × Nat) : List (List Char) :=
  if st.2.1 = [] then (if st.1 = [] then [[]] else st.1)
  else st.1 ++ [st.2.1]

/-- Model of `_wrap_visible(text, width)` from `shai/ui/table.py`: greedy word wrap
counting only visible characters; empty text gives one empty line. -/
def wrapVisible (text : List Char) (width : Nat) : List (List Char) :=
  if text = [] then [[]]
  else wrapFinish ((splitWs text).foldl (wrapStep width) ([], [], 0))

/-- Single-space join, the shape of every line `_wrap_visible` builds. -/
def spaceJoin : List (List Char) → List Char
  | [] => []
  | w :: ws =>
    match ws with
    | [] => w
    | _ :: _ => w ++ ' ' :: spaceJoin ws

/-- A line of the wrapper: a single-space join of nonempty whitespace-free
tokens whose visible length fits the width. -/
def goodLine (W : Nat) (l : List Char) : Prop :=
  ∃ g, g ≠ [] ∧ (∀ w ∈ g, w ≠ [] ∧ ∀ c ∈ w, isWs c = false) ∧
    l = spaceJoin g ∧ visLen l ≤ W

/-- Wrapper state invariant: finished lines are good, and the current line
is a nonempty good join whose recorded length is its visible length. -/
def goodState (W : Nat) (st : List (List Char) × List Char × Nat) : Prop :=
  (∀ l ∈ st.1, goodLine W l) ∧
  ∃ g, g ≠ [] ∧ (∀ w ∈ g, w ≠ [] ∧ ∀ c ∈ w, isWs c = false) ∧
    st.2.1 = spaceJoin g ∧ st.2.2 = visLen st.2.1 ∧ visLen st.2.1 ≤ W

/-! ### Column specs and the width solver (`render_table` in `shai/ui/table.py`)

`render_table` computes per-column widths from the terminal width `w`, the
starting column `start_x`, the inter-column `gap`, the `ColSpec` constraints
and content samples, in two branches (content fits / content exceeds the
budget), each with a redistribution loop.  The loops below take explicit
fuel; the Python loops are bounded (the leftover loop breaks once
`k > 3*len(wrap_cols)` without progress, the diff loop breaks at
`j > 10000`) and the fuel supplied always exceeds those bounds, so the
fuelled functions compute exactly what the source loops do. -/

structure ColSpec where
  header : List Char
  min_width : Nat := 8
  max_width : Option Nat := none
  wrap : Bool := true
  ellipsis : Bool := true
deriving DecidableEq, Repr

instance : Inhabited ColSpec := ⟨⟨[], 8, none, true, true⟩⟩

/-- Model of Python `a or b` on an optional integer: both `None` and `0` are falsy. -/
def pyOr (o : Option Nat) (d : Nat) : Nat :=
  match o with
  | none => d
  | some v => if v = 0 then d else v

/-- One sampled content width:
`min(max(visible_len(cell_plain), visible_len(headers[j])), 200)`. -/
def sampleOf (cs : ColSpec) (cell : List Char) : Nat :=
  min (max (visLen (stripAnsi cell)) (visLen (stripAnsi cs.header))) 200

/-- Model of `max(samples[j]) if samples[j] else cs.min_width`. -/
def sampleMax (cs : ColSpec) (cells : List (List Char)) : Nat :=
  match cells with
  | [] => cs.min_width
  | _ => (cells.map (sampleOf cs)).foldl max 0

/-- Model of `target = max(cs.min_width, min(sample, cs.max_width or 10**6))`. -/
def idealOf (cs : ColSpec) (cells : List (List Char)) : Nat :=
  max cs.min_width (min (sampleMax cs cells) (pyOr cs.max_width 1000000))

/-- The `ideal` list of `render_table` (lines 83-91). -/
def computeIdeal (colspecs : List ColSpec) (rows : List (List (List Char))) :
    List Nat :=
  (List.range colspecs.length).map (fun j =>
    idealOf (colspecs.getD j default) (rows.map (fun r => r.getD j [])))

/-- Model of `col_space = max(1, available - total_gap)` with
`available = max(0, w - start_x)` (natural subtraction models both `max(0,·)`
clamps). -/
def colSpace (w start_x gap ncols : Nat) : Nat :=
  max 1 ((w - start_x) - gap * (ncols - 1))

/-- Model of `sum_ideal = sum(ideal) or 1`. -/
def sumIdeal (colspecs : List ColSpec) (rows : List (List (List Char))) : Nat :=
  if (computeIdeal colspecs rows).sum = 0 then 1 else (computeIdeal colspecs rows).sum

/-- The leftover distribution loop of the under-budget branch
(lines 99-108): round-robin over wrap columns, each capped at
`cs.max_width or col_space`. -/
def loopAdd (colspecs : List ColSpec) (col_space : Nat) (ws : List Nat)
    (leftover j : Nat) : Nat :=
  min leftover
    (pyOr (colspecs.getD j default).max_width col_space - ws.getD j 0)

def leftoverLoop (colspecs : List ColSpec) (col_space : Nat)
    (wrap_cols : List Nat) : Nat → List Nat → Nat → Nat → List Nat
  | 0, ws, _, _ => ws
  | fuel + 1, ws, leftover, k =>
    if 0 < leftover ∧ wrap_cols ≠ [] then
      if loopAdd colspecs col_space ws leftover (wrap_cols.getD (k % wrap_cols.length) 0) = 0 then
        if 3 * wrap_cols.length < k + 1 then ws
        else leftoverLoop colspecs col_space wrap_cols fuel ws leftover (k + 1)
      else
        leftoverLoop colspecs col_space wrap_cols fuel
          (ws.set (wrap_cols.getD (k % wrap_cols.length) 0)
            (ws.getD (wrap_cols.getD (k % wrap_cols.length) 0) 0 +
              loopAdd colspecs col_space ws leftover (wrap_cols.getD (k % wrap_cols.length) 0)))
          (leftover - loopAdd colspecs col_space ws leftover (wrap_cols.getD (k % wrap_cols.length) 0))
          (k + 1)
    else ws

/-- The per-step eligibility test of the over-budget adjustment loop:
`neww >= colspecs[idx].min_width and (colspecs[idx].max_width is None or
neww <= colspecs[idx].max_width)` with `neww = widths[idx] + step`. -/
def diffOk (colspecs : List ColSpec) (ws : List Nat) (idx : Nat)
    (step : Int) : Bool :=
  decide (((colspecs.getD idx default).min_width : Int) ≤ (ws.getD idx 0 : Int) + step) &&
    (match (colspecs.getD idx default).max_width with
     | none => true
     | some m => decide ((ws.getD idx 0 : Int) + step ≤ (m : Int)))

/-- The updated width list of one diff-loop iteration. -/
def diffUpd (colspecs : List ColSpec) (ws : List Nat) (idx : Nat)
    (step : Int) : List Nat :=
  if diffOk colspecs ws idx step then
    ws.set idx ((ws.getD idx 0 : Int) + step).toNat
  else ws

/-- The rounding-remainder adjustment loop of the over-budget branch
(lines 111-120): step wrap-capable candidates (all columns if none wrap) by
±1 within their bounds until `diff` is zero or the iteration cap fires. -/
def diffLoop (colspecs : List ColSpec) (candidates : List Nat) :
    Nat → List Nat → Int → Nat → List Nat
  | 0, ws, _, _ => ws
  | fuel + 1, ws, diff, j =>
    if diff ≠ 0 ∧ colspecs.length ≠ 0 then
      if 10000 < j + 1 then
        diffUpd colspecs ws (candidates.getD (j % candidates.length) 0)
          (if 0 < diff then 1 else -1)
      else
        diffLoop colspecs candidates fuel
          (diffUpd colspecs ws (candidates.getD (j % candidates.length) 0)
            (if 0 < diff then 1 else -1))
          (if diffOk colspecs ws (candidates.getD (j % candidates.length) 0)
              (if 0 < diff then 1 else -1) then
            diff - (if 0 < diff then 1 else -1)
          else diff)
          (j + 1)
    else ws

/-- The wrap-capable column indices, in declaration order. -/
def wrapCols (colspecs : List ColSpec) : List Nat :=
  (List.range colspecs.length).filter (fun j => (colspecs.getD j default).wrap)

/-- Model of `candidates = [k for k, cs in enumerate(colspecs) if cs.wrap] or
list(range(ncols))` (recomputed but constant inside the loop). -/
def overCandidates (colspecs : List ColSpec) : List Nat :=
  match wrapCols colspecs with
  | [] => List.range colspecs.length
  | c => c

/-- The under-budget initial widths:
`[min(ideal[j], colspecs[j].max_width or ideal[j]) for j in range(ncols)]`. -/
def underWidths0 (colspecs : List ColSpec) (rows : List (List (List Char))) :
    List Nat :=
  (List.range colspecs.length).map (fun j =>
    min ((computeIdeal colspecs rows).getD j 0)
      (pyOr (colspecs.getD j default).max_width ((computeIdeal colspecs rows).getD j 0)))

/-- The over-budget initial widths:
`[max(colspecs[j].min_width, int(col_space * (ideal[j] / sum_ideal)))]`,
with the float expression modelled as exact floor division (the two agree on
all realistic magnitudes). -/
def overWidths0 (w start_x gap : Nat) (colspecs : List ColSpec)
    (rows : List (List (List Char))) : List Nat :=
  (List.range colspecs.length).map (fun j =>
    max (colspecs.getD j default).min_width
      (colSpace w start_x gap colspecs.length * (computeIdeal colspecs rows).getD j 0 /
        sumIdeal colspecs rows))

/-- The width solver of `render_table` (lines 76-120).  The dead initial
assignment `widths = [max(1, cs.min_width)]` (line 77) is overwritten by both
branches and is omitted. -/
def solveWidths (w start_x gap : Nat) (colspecs : List ColSpec)
    (rows : List (List (List Char))) : List Nat :=
  if sumIdeal colspecs rows ≤ colSpace w start_x gap colspecs.length then
    leftoverLoop colspecs (colSpace w start_x gap colspecs.length) (wrapCols colspecs)
      (colSpace w start_x gap colspecs.length + 3 * colspecs.length + 2)
      (underWidths0 colspecs rows)
      (colSpace w start_x gap colspecs.length - (underWidths0 colspecs rows).sum) 0
  else
    diffLoop colspecs (overCandidates colspecs) 10002
      (overWidths0 w start_x gap colspecs rows)
      ((colSpace w start_x gap colspecs.length : Int) -
        ((overWidths0 w start_x gap colspecs rows).sum : Int)) 0

/-- The data-model invariant of `ColSpec` (spec §3): minimum ≥ 1 and, when a
maximum is declared, minimum ≤ maximum. -/
def colInv (colspecs : List ColSpec) : Prop :=
  ∀ cs ∈ colspecs, 1 ≤ cs.min_width ∧
    cs.min_width ≤ cs.max_width.getD cs.min_width

instance (colspecs : List ColSpec) : Decidable (colInv colspecs) := by
  unfold colInv
  infer_instance

/-- Every solved width within its declared bounds. -/
def widthBounds (colspecs : List ColSpec) (ws : List Nat) : Prop :=
  ∀ j, j < colspecs.length →
    (colspecs.getD j default).min_width ≤ ws.getD j 0 ∧
    ∀ m, (colspecs.getD j default).max_width = some m → ws.getD j 0 ≤ m

def budgetCexSpecs : List ColSpec :=
  [⟨[], 1, none, true, true⟩, ⟨[], 10, none, false, true⟩,
   ⟨[], 1, none, false, true⟩]

def budgetCexRows : List (List (List Char)) :=
  [[ "x".toList, [], List.replicate 100 'z' ]]

/-! ### Selection state machine (`grid_select` in `shai/ui/table.py`)

One iteration of the interactive loop is: render the current state (in
`Submenu` mode this re-invokes the row-menu provider, line 250), read one
key, dispatch on it (lines 269-289).  Key codes are modelled by the
equivalence classes the dispatch distinguishes: `KEY_UP`/`k`, `KEY_DOWN`/`j`,
`KEY_LEFT`/`h`, `KEY_RIGHT`/`l`, Enter (10/13), Escape (27)/`q`,
`KEY_RESIZE`, the poll timeout (`getch() == -1`), anything else.  Indices are
`Nat`; for the claims considered the row list is nonempty, where the Python
`min(len(rows)-1, ...)` never goes negative and coincides with the model. -/

inductive Mode where
  | rows
  | submenu
deriving DecidableEq, Repr

/-- The loop state of `grid_select`, plus `provider_calls`, an
instrumentation counter of how many times the source has invoked the
row-menu provider. -/
structure SelState where
  sel_row : Nat
  mode : Mode
  sel_sub : Nat
  submenu_items : List (List Char)
  provider_calls : Nat
deriving DecidableEq, Repr

inductive Key where
  | up
  | down
  | left
  | right
  | enter
  | escape
  | resize
  | timeout
  | other
deriving DecidableEq, Repr

def initState : SelState := ⟨0, .rows, 0, [], 0⟩

/-- The render phase of one loop iteration: drawing changes no state, but in
`Submenu` mode line 250 re-assigns
`submenu_items = row_menu_provider(sel_row) if row_menu_provider else []`,
invoking the provider once when present. -/
def renderPhase (provider : Option (Nat → List (List Char)))
    (s : SelState) : SelState :=
  match s.mode with
  | .rows => s
  | .submenu =>
    match provider with
    | none => { s with submenu_items := [] }
    | some f =>
      { s with
        submenu_items := f s.sel_row
        provider_calls := s.provider_calls + 1 }

/-- The key dispatch of `grid_select` (lines 269-289).  `.inl` continues the
loop with the new state, `.inr` returns the Result triple. -/
def dispatch (provider : Option (Nat → List (List Char)))
    (nrows submenu_cols : Nat) (s : SelState) (ch : Key) :
    Sum SelState (String × Option Nat × Option Nat) :=
  match ch with
  | .timeout => .inl s
  | _ =>
    match s.mode with
    | .rows =>
      match ch with
      | .up => .inl { s with sel_row := s.sel_row - 1 }
      | .down => .inl { s with sel_row := min (nrows - 1) (s.sel_row + 1) }
      | .enter =>
        match provider with
        | none => .inr ("row-selected", some s.sel_row, none)
        | some f =>
          if f s.sel_row = [] then .inr ("row-selected", some s.sel_row, none)
          else .inl
            { s with
              mode := .submenu
              sel_sub := 0
              submenu_items := f s.sel_row
              provider_calls := s.provider_calls + 1 }
      | .escape => .inr ("quit", none, none)
      | _ => .inl s
    | .submenu =>
      match ch with
      | .left => .inl { s with sel_sub := s.sel_sub - 1 }
      | .right =>
        .inl { s with sel_sub := min (s.submenu_items.length - 1) (s.sel_sub + 1) }
      | .up => .inl { s with sel_sub := s.sel_sub - max 1 submenu_cols }
      | .down =>
        .inl { s with
          sel_sub := min (s.submenu_items.length - 1) (s.sel_sub + max 1 submenu_cols) }
      | .enter => .inr ("submenu-selected", some s.sel_row, some s.sel_sub)
      | .escape => .inl { s with mode := .rows }
      | _ => .inl s

/-- One full render-input iteration of the `grid_select` loop. -/
def gridIter (provider : Option (Nat → List (List Char)))
    (nrows submenu_cols : Nat) (s : SelState) (ch : Key) :
    Sum SelState (String × Option Nat × Option Nat) :=
  dispatch provider nrows submenu_cols (renderPhase provider s) ch

/-- Run the loop over a list of input keys. -/
def runKeys (provider : Option (Nat → List (List Char)))
    (nrows submenu_cols : Nat) :
    SelState → List Key → Sum SelState (String × Option Nat × Option Nat)
  | s, [] => .inl s
  | s, ch :: rest =>
    match gridIter provider nrows submenu_cols s ch with
    | .inl s2 => runKeys provider nrows submenu_cols s2 rest
    | .inr r => .inr r

/-- The sub-menu Right-arrow movement of the alternate `grid_select` in
`shai/ui/select.py` (line 51): `sel = (sel+1) % len(opts)` — circular. -/
def selectSubRight (nopts sel : Nat) : Nat := (sel + 1) % nopts

/-- The sub-menu Left-arrow movement of `shai/ui/select.py` (line 53):
`sel = (sel-1) % len(opts)`; Python's modulo of a negative wraps, which on
naturals is `(sel + nopts - 1) % nopts`. -/
def selectSubLeft (nopts sel : Nat) : Nat := (sel + nopts - 1) % nopts

/-! ### Per-line attribute computation (`render_table` lines 171-185)

The caller-supplied style callbacks are modelled as functions returning
`Except Unit Nat`: `.error ()` models the callback raising an exception (or
its return value failing the `int()` conversion).  The `try/except: pass`
of the source corresponds to the `.error` branch leaving the accumulated
attribute unchanged.  Attributes are naturals combined with bitwise or. -/

def withCellStyle (sf : Option (Nat → Nat → List Char → Except Unit Nat))
    (i j : Nat) (cellText : List Char) (a : Nat) : Nat :=
  match sf with
  | none => a
  | some f =>
    match f i j cellText with
    | .ok v => a ||| v
    | .error _ => a

def withLineStyle (lsf : Option (Nat → Nat → Nat → List Char → Except Unit Nat))
    (i j k : Nat) (lineText : List Char) (a : Nat) : Nat :=
  match lsf with
  | none => a
  | some g =>
    match g i j k lineText with
    | .ok v => a ||| v
    | .error _ => a

def pickHighlight (highlight_attr : Nat) (highlight_row : Option Nat)
    (highlight_cell : Option (Nat × Nat)) (i j : Nat) (a : Nat) : Nat :=
  if highlight_row = some i then highlight_attr
  else if highlight_cell = some (i, j) then highlight_attr
  else a

def cellAttr (normal_attr highlight_attr : Nat)
    (style_fn : Option (Nat → Nat → List Char → Except Unit Nat))
    (line_style_fn : Option (Nat → Nat → Nat → List Char → Except Unit Nat))
    (highlight_row : Option Nat) (highlight_cell : Option (Nat × Nat))
    (i j k : Nat) (cellText lineText : List Char) : Nat :=
  pickHighlight highlight_attr highlight_row highlight_cell i j
    (withLineStyle line_style_fn i j k lineText
      (withCellStyle style_fn i j cellText normal_attr))

/-! ### Cell and header rendering pipeline (`render_table` lines 126-158,
186-195) -/

/-- Fuel-indexed Python `str.splitlines()`, modelled for the newline
character; fuel is a structural-recursion device, always supplied
adequately.  `""` yields no lines and a trailing newline yields no final
empty line, as in Python. -/
def splitLinesF : Nat → List Char → List (List Char)
  | 0, _ => []
  | fuel + 1, s =>
    match s with
    | [] => []
    | _ :: _ =>
      (s.takeWhile (fun c => !(c = '\n'))) ::
        match s.dropWhile (fun c => !(c = '\n')) with
        | [] => []
        | _ :: rest => splitLinesF fuel rest

def splitLines (s : List Char) : List (List Char) := splitLinesF s.length s

/-- The wrapped display lines of one cell (lines 132-143): ANSI is stripped
once, the text split on newlines, each part word-wrapped (wrap columns), or
cropped with ellipsis and padded (rigid columns). -/
def cellLines (cs : ColSpec) (width : Nat) (cell : List Char) :
    List (List Char) :=
  if cs.wrap then
    match (splitLines (stripAnsi cell)).flatMap (fun part => wrapVisible part width) with
    | [] => [[]]
    | l => l
  else
    [ljustVisible (cropVisible (stripAnsi cell) width cs.ellipsis) width]

/-- The string actually drawn for display line `k` of a cell
(lines 188-193). -/
def drawnCellLine (cs : ColSpec) (width : Nat) (lines : List (List Char))
    (k : Nat) : List Char :=
  if cs.wrap then ljustVisible (lines.getD k []) width
  else ljustVisible (cropVisible (lines.getD k []) width cs.ellipsis) width

/-- The header cell actually drawn (lines 156-158): note it crops the RAW
`cs.header`, not the ANSI-stripped copy used for width estimation. -/
def drawnHeader (cs : ColSpec) (width : Nat) : List Char :=
  ljustVisible (cropVisible cs.header width false) width

/-- A string containing no ESC character (so certainly no escape
sequence). -/
def noEsc (l : List Char) : Prop := ∀ c ∈ l, c ≠ escChar

instance (l : List Char) : Decidable (noEsc l) := by
  unfold noEsc
  infer_instance

/-! ### Theorems -/

theorem length_dropWhile_le (p : Char → Bool) (l : List Char) :
    (l.dropWhile p).length ≤ l.length := by
  induction l with
  | nil => simp
  | cons a tl ih =>
    rw [List.dropWhile_cons]
    split
    · exact Nat.le_trans ih (Nat.le_succ _)
    · exact Nat.le_refl _

theorem dropWhile_params_append {ps : List Char}
    (hps : ∀ x ∈ ps, isParamChar x = true) (l : List Char) :
    (ps ++ l).dropWhile isParamChar = l.dropWhile isParamChar := by
  induction ps with
  | nil => simp
  | cons a tl ih =>
    simp only [List.cons_append, List.dropWhile_cons, hps a (by simp), if_true]
    exact ih (fun x hx => hps x (by simp [hx]))

theorem isParamChar_m : isParamChar 'm' = false := by decide

theorem takeWhile_params_append {ps : List Char}
    (hps : ∀ x ∈ ps, isParamChar x = true) (x : List Char) :
    (ps ++ 'm' :: x).takeWhile isParamChar = ps := by
  induction ps with
  | nil => simp [List.takeWhile_cons, isParamChar_m]
  | cons a tl ih =>
    simp only [List.cons_append, List.takeWhile_cons, hps a (by simp), if_true]
    rw [ih (fun y hy => hps y (by simp [hy]))]

theorem matchAnsi_rest_lt {s c r : List Char} (h : matchAnsi s = some (c, r)) :
    r.length < s.length := by
  unfold matchAnsi at h
  match s with
  | [] => simp at h
  | [a] => simp at h
  | a :: b :: rest =>
    simp only at h
    split at h
    · split at h
      · rename_i cc tl hdrop
        split at h
        · injection h with h
          injection h with h1 h2
          subst h2
          have hlen : (rest.dropWhile isParamChar).length ≤ rest.length :=
            length_dropWhile_le _ _
          rw [hdrop] at hlen
          simp only [List.length_cons] at hlen ⊢
          omega
        · exact absurd h (by simp)
      · exact absurd h (by simp)
    · exact absurd h (by simp)

/-- Structure of a successful match: the chunk is `ESC [ ps m` with `ps` all
parameter characters, and the input splits as chunk ++ rest. -/
theorem matchAnsi_some_shape {s c r : List Char} (h : matchAnsi s = some (c, r)) :
    ∃ ps, (∀ x ∈ ps, isParamChar x = true) ∧
      c = escChar :: '[' :: (ps ++ ['m']) ∧ s = c ++ r := by
  unfold matchAnsi at h
  match s with
  | [] => simp at h
  | [a] => simp at h
  | a :: b :: rest =>
    simp only at h
    split at h
    · rename_i hab
      obtain ⟨ha, hb⟩ := hab
      split at h
      · rename_i cc tl hdrop
        split at h
        · rename_i hm
          injection h with h
          injection h with h1 h2
          refine ⟨rest.takeWhile isParamChar, fun x hx => List.mem_takeWhile_imp hx, h1.symm, ?_⟩
          have hrest : rest = rest.takeWhile isParamChar ++ 'm' :: tl := by
            conv_lhs => rw [← List.takeWhile_append_dropWhile isParamChar rest]
            rw [hdrop, hm]
          subst ha hb h2
          rw [← h1]
          conv_lhs => rw [hrest]
          simp
        · exact absurd h (by simp)
      · exact absurd h (by simp)
    · exact absurd h (by simp)

/-- A well-shaped chunk matches in front of any continuation. -/
theorem matchAnsi_chunk {ps : List Char} (hps : ∀ x ∈ ps, isParamChar x = true)
    (x : List Char) :
    matchAnsi ((escChar :: '[' :: (ps ++ ['m'])) ++ x) =
      some (escChar :: '[' :: (ps ++ ['m']), x) := by
  have hkey : ps ++ ['m'] ++ x = ps ++ 'm' :: x := by simp
  unfold matchAnsi
  simp only [List.cons_append, hkey]
  rw [dropWhile_params_append hps, takeWhile_params_append hps]
  rw [List.dropWhile_cons, isParamChar_m]
  simp

/-- Matching is monotone under extending the input on the right. -/
theorem matchAnsi_append {s c r : List Char} (u : List Char)
    (h : matchAnsi s = some (c, r)) :
    matchAnsi (s ++ u) = some (c, r ++ u) := by
  obtain ⟨ps, hps, hc, hs⟩ := matchAnsi_some_shape h
  subst hc
  rw [hs, List.append_assoc]
  exact matchAnsi_chunk hps (r ++ u)

theorem tokenizeF_nil (n : Nat) : tokenizeF n [] = [] := by
  cases n <;> rfl

theorem tokenizeF_congr : ∀ (n m : Nat) (s : List Char), s.length ≤ n →
    s.length ≤ m → tokenizeF n s = tokenizeF m s := by
  intro n
  induction n with
  | zero =>
    intro m s hn hm
    rw [List.length_eq_zero.mp (Nat.le_zero.mp hn), tokenizeF_nil, tokenizeF_nil]
  | succ n ih =>
    intro m s hn hm
    match s with
    | [] => rw [tokenizeF_nil, tokenizeF_nil]
    | a :: tl =>
      match m with
      | 0 => simp at hm
      | m + 1 =>
        show tokenizeF (n + 1) (a :: tl) = tokenizeF (m + 1) (a :: tl)
        rw [tokenizeF, tokenizeF]
        match hma : matchAnsi (a :: tl) with
        | some (c, r) =>
          have hlt := matchAnsi_rest_lt hma
          simp only [List.length_cons] at hn hm hlt
          simp only
          rw [ih m r (by omega) (by omega)]
        | none =>
          simp only [List.length_cons] at hn hm
          simp only
          rw [ih m tl (by omega) (by omega)]

theorem tokenize_nil : tokenize [] = [] := rfl

theorem tokenize_match {s c r : List Char} (h : matchAnsi s = some (c, r)) :
    tokenize s = .esc c :: tokenize r := by
  match s with
  | [] => simp [matchAnsi] at h
  | a :: tl =>
    show tokenizeF (a :: tl).length (a :: tl) = _
    rw [List.length_cons, tokenizeF, h]
    have hlt := matchAnsi_rest_lt h
    simp only [List.length_cons] at hlt
    simp only
    rw [tokenizeF_congr tl.length r.length r (by omega) (Nat.le_refl _)]
    rfl

theorem tokenize_nomatch {a : Char} {tl : List Char}
    (h : matchAnsi (a :: tl) = none) :
    tokenize (a :: tl) = .chr a :: tokenize tl := by
  show tokenizeF (a :: tl).length (a :: tl) = _
  rw [List.length_cons, tokenizeF, h]
  rfl

theorem flattenToks_nil : flattenToks [] = [] := rfl

theorem flattenToks_cons (t : Tok) (ts : List Tok) :
    flattenToks (t :: ts) =
      (match t with | .esc cs => cs | .chr c => [c]) ++ flattenToks ts := by
  simp [flattenToks]

theorem chrCount_cons (t : Tok) (ts : List Tok) :
    chrCount (t :: ts) =
      (match t with | .esc _ => 0 | .chr _ => 1) + chrCount ts := by
  cases t <;> simp [chrCount, List.filter] <;> omega

/-- The tokenization covers the whole string. -/
theorem flattenToks_tokenize (s : List Char) : flattenToks (tokenize s) = s := by
  have key : ∀ (n : Nat) (s : List Char), s.length ≤ n → flattenToks (tokenize s) = s := by
    intro n
    induction n with
    | zero =>
      intro s hs
      rw [List.length_eq_zero.mp (Nat.le_zero.mp hs), tokenize_nil, flattenToks_nil]
    | succ n ih =>
      intro s hs
      match hm : matchAnsi s with
      | some (c, r) =>
        obtain ⟨ps, hps, hc, hrw⟩ := matchAnsi_some_shape hm
        rw [tokenize_match hm, flattenToks_cons]
        have hlt := matchAnsi_rest_lt hm
        rw [ih r (by omega), ← hrw]
      | none =>
        match s with
        | [] => rw [tokenize_nil, flattenToks_nil]
        | a :: tl =>
          rw [tokenize_nomatch hm, flattenToks_cons]
          have htl : flattenToks (tokenize tl) = tl := by
            simp only [List.length_cons] at hs
            exact ih tl (by omega)
          simp [htl]
  exact key s.length s (Nat.le_refl _)

/-- A prefix of a tokenization re-tokenizes to itself.  This is the key fact
letting the pop loop of `crop_visible`, which re-measures `visible_len` of the
joined output, be reasoned about token-wise. -/
theorem tokenize_flattenToks_prefix {s : List Char} {p q : List Tok}
    (h : tokenize s = p ++ q) : tokenize (flattenToks p) = p := by
  have key : ∀ (n : Nat) (s : List Char) (p q : List Tok), s.length ≤ n →
      tokenize s = p ++ q → tokenize (flattenToks p) = p := by
    intro n
    induction n with
    | zero =>
      intro s p q hs h
      rw [List.length_eq_zero.mp (Nat.le_zero.mp hs)] at h
      rw [tokenize_nil] at h
      obtain ⟨h1, h2⟩ := List.append_eq_nil.mp h.symm
      rw [h1, flattenToks_nil, tokenize_nil]
    | succ n ih =>
      intro s p q hs h
      match p with
      | [] => rw [flattenToks_nil, tokenize_nil]
      | t :: p2 =>
        match hm : matchAnsi s with
        | some (c, r) =>
          rw [tokenize_match hm] at h
          injection h with h1 h2
          subst h1
          obtain ⟨ps, hps, hc, hrw⟩ := matchAnsi_some_shape hm
          rw [flattenToks_cons]
          have hmatch : matchAnsi (c ++ flattenToks p2) = some (c, flattenToks p2) := by
            rw [hc]
            exact matchAnsi_chunk hps _
          rw [tokenize_match hmatch]
          have hlt := matchAnsi_rest_lt hm
          rw [ih r p2 q (by omega) h2]
        | none =>
          match s with
          | [] =>
            rw [tokenize_nil] at h
            exact absurd h.symm (by simp)
          | a :: tl =>
            rw [tokenize_nomatch hm] at h
            injection h with h1 h2
            subst h1
            rw [flattenToks_cons]
            have hflat : flattenToks p2 ++ flattenToks q = tl := by
              have hft := flattenToks_tokenize tl
              rw [h2] at hft
              simpa [flattenToks] using hft
            have hnom : matchAnsi (a :: flattenToks p2) = none := by
              cases hmm : matchAnsi (a :: flattenToks p2) with
              | none => rfl
              | some cr =>
                obtain ⟨c, r⟩ := cr
                have hext := matchAnsi_append (flattenToks q) hmm
                rw [List.cons_append, hflat] at hext
                rw [hext] at hm
                exact absurd hm (by simp)
            have htl : tokenize (flattenToks p2) = p2 := by
              simp only [List.length_cons] at hs
              exact ih tl p2 q (by omega) h2
            simp only [List.singleton_append]
            rw [tokenize_nomatch hnom, htl]
  exact key s.length s p q (Nat.le_refl _) h

theorem dropWhile_append_eq (p : Char → Bool) (u v : List Char) :
    (u ++ v).dropWhile p =
      if u.dropWhile p = [] then v.dropWhile p else u.dropWhile p ++ v := by
  induction u with
  | nil => simp
  | cons a tlu ih =>
    rw [List.cons_append, List.dropWhile_cons, List.dropWhile_cons]
    by_cases hp : p a = true
    · simp only [hp, if_true]
      exact ih
    · simp only [Bool.not_eq_true] at hp
      simp [hp]

/-- If no match starts at the head of `a :: tl`, appending text that begins
with a safe character still produces no match there. -/
theorem matchAnsi_none_append_safe {c : Char} (hparam : isParamChar c = false)
    (hm2 : c ≠ 'm') (hbr : c ≠ '[') {a : Char} {tl : List Char}
    (h : matchAnsi (a :: tl) = none) (ys : List Char) :
    matchAnsi ((a :: tl) ++ c :: ys) = none := by
  match tl with
  | [] =>
    unfold matchAnsi
    simp only [List.cons_append, List.nil_append]
    split
    · rename_i hab
      exact absurd hab.2 hbr
    · rfl
  | b :: tl2 =>
    unfold matchAnsi at h ⊢
    simp only [List.cons_append]
    simp only at h
    split
    · rename_i hab
      rw [if_pos hab] at h
      rw [dropWhile_append_eq]
      by_cases hnil : tl2.dropWhile isParamChar = []
      · rw [if_pos hnil]
        rw [List.dropWhile_cons, hparam]
        simp only [Bool.false_eq_true, if_false]
        split
        · rename_i heq
          exact absurd heq hm2
        · rfl
      · obtain ⟨e, etl, hdtl⟩ : ∃ e etl, tl2.dropWhile isParamChar = e :: etl := by
          cases hd : tl2.dropWhile isParamChar with
          | nil => exact absurd hd hnil
          | cons e etl => exact ⟨e, etl, rfl⟩
        rw [if_neg hnil, hdtl]
        rw [hdtl] at h
        simp only at h
        simp only [List.cons_append]
        split
        · rename_i heq
          rw [if_pos heq] at h
          exact absurd h (by simp)
        · rfl
    · rfl

/-- No match can begin strictly before a safe character and extend to or past
it, so tokenization distributes over an append whose right part starts with a
safe character. -/
theorem tokenize_append_safe {c : Char} (hc : safeChar c) (xs ys : List Char) :
    tokenize (xs ++ c :: ys) = tokenize xs ++ tokenize (c :: ys) := by
  obtain ⟨hparam, hm2, hbr, hesc⟩ := hc
  have key : ∀ (n : Nat) (xs : List Char), xs.length ≤ n →
      tokenize (xs ++ c :: ys) = tokenize xs ++ tokenize (c :: ys) := by
    intro n
    induction n with
    | zero =>
      intro xs hxs
      rw [List.length_eq_zero.mp (Nat.le_zero.mp hxs), tokenize_nil]
      simp
    | succ n ih =>
      intro xs hxs
      match hm : matchAnsi xs with
      | some (ch, r) =>
        rw [tokenize_match (matchAnsi_append (c :: ys) hm), tokenize_match hm]
        have hlt := matchAnsi_rest_lt hm
        rw [List.cons_append, ih r (by omega)]
      | none =>
        match xs with
        | [] => simp [tokenize_nil]
        | a :: tl =>
          have hnom := matchAnsi_none_append_safe hparam hm2 hbr hm ys
          rw [List.cons_append] at hnom
          rw [List.cons_append, tokenize_nomatch hnom, tokenize_nomatch hm]
          simp only [List.length_cons] at hxs
          rw [List.cons_append, ih tl (by omega)]
  exact key xs.length xs (Nat.le_refl _)

theorem popLoop_eq (width : Nat) (out : List Tok) :
    popLoop width out =
      if out ≠ [] ∧ width ≤ visLen (flattenToks out) then
        popLoop width out.dropLast
      else out := by
  match out with
  | [] =>
    rw [popLoop]
    simp [popLoopF]
  | t :: ts =>
    show popLoopF ((t :: ts).length) width (t :: ts) = _
    rw [List.length_cons, popLoopF]
    have hdl : (t :: ts).dropLast.length = ts.length := by
      rw [List.length_dropLast, List.length_cons]
      omega
    rw [popLoop, hdl]

theorem chrCount_append (a b : List Tok) :
    chrCount (a ++ b) = chrCount a + chrCount b := by
  simp [chrCount, List.filter_append]

theorem flattenToks_append (a b : List Tok) :
    flattenToks (a ++ b) = flattenToks a ++ flattenToks b := by
  simp [flattenToks]

theorem stripAnsi_length_eq_chrCount (s : List Char) :
    visLen s = chrCount (tokenize s) := by
  unfold visLen stripAnsi chrCount
  induction tokenize s with
  | nil => simp
  | cons t ts ih =>
    cases t <;> simp_all [List.filter]

/-- The `visible_len` of the characters of a self-tokenizing token list counts
its ordinary characters. -/
theorem visLen_flattenToks {out : List Tok}
    (h : tokenize (flattenToks out) = out) :
    visLen (flattenToks out) = chrCount out := by
  rw [stripAnsi_length_eq_chrCount, h]

theorem safeChar_space : safeChar ' ' := by
  refine ⟨by decide, by decide, by decide, ?_⟩
  intro h
  exact absurd (congrArg Char.toNat h) (by decide)

theorem safeChar_ellipsis : safeChar ellipsisChar := by
  refine ⟨by decide, by decide, by decide, ?_⟩
  intro h
  exact absurd (congrArg Char.toNat h) (by decide)

theorem safeChar_newline : safeChar '\n' := by
  refine ⟨by decide, by decide, by decide, ?_⟩
  intro h
  exact absurd (congrArg Char.toNat h) (by decide)

theorem matchAnsi_none_of_head_ne_esc {a : Char} (ha : a ≠ escChar)
    (tl : List Char) : matchAnsi (a :: tl) = none := by
  unfold matchAnsi
  match tl with
  | [] => rfl
  | b :: tl2 =>
    simp only
    split
    · rename_i hab
      exact absurd hab.1 ha
    · rfl

theorem tokenize_cons_safe {c : Char} (hc : c ≠ escChar) (ys : List Char) :
    tokenize (c :: ys) = .chr c :: tokenize ys :=
  tokenize_nomatch (matchAnsi_none_of_head_ne_esc hc ys)

/-- The `visible_len` measure splits across an append whose right part starts with a
safe character. -/
theorem visLen_append_safe {c : Char} (hc : safeChar c) (xs ys : List Char) :
    visLen (xs ++ c :: ys) = visLen xs + 1 + visLen ys := by
  rw [stripAnsi_length_eq_chrCount, stripAnsi_length_eq_chrCount,
    stripAnsi_length_eq_chrCount, tokenize_append_safe hc, chrCount_append,
    tokenize_cons_safe hc.2.2.2, chrCount_cons]
  simp only
  omega

/-- An ESC-free string tokenizes to plain characters. -/
theorem tokenize_all_plain {l : List Char} (h : ∀ c ∈ l, c ≠ escChar) :
    tokenize l = l.map .chr := by
  induction l with
  | nil => simp [tokenize_nil]
  | cons a tl ih =>
    rw [tokenize_cons_safe (h a (by simp)) tl, ih (fun c hc => h c (by simp [hc]))]
    rfl

theorem visLen_all_plain {l : List Char} (h : ∀ c ∈ l, c ≠ escChar) :
    visLen l = l.length := by
  rw [stripAnsi_length_eq_chrCount, tokenize_all_plain h]
  unfold chrCount
  induction l with
  | nil => simp
  | cons a tl ih => simp_all [List.filter]

/-- The copy loop returns a prefix of its input token list. -/
theorem cropLoop_prefix (width : Nat) (ts : List Tok) (vis : Nat) :
    ∃ q, cropLoop width ts vis ++ q = ts := by
  induction ts generalizing vis with
  | nil => exact ⟨[], rfl⟩
  | cons t ts ih =>
    unfold cropLoop
    by_cases hv : vis < width
    · rw [if_pos hv]
      cases t with
      | esc cs =>
        obtain ⟨q, hq⟩ := ih vis
        exact ⟨q, by simp [hq]⟩
      | chr c =>
        obtain ⟨q, hq⟩ := ih (vis + 1)
        exact ⟨q, by simp [hq]⟩
    · rw [if_neg hv]
      exact ⟨t :: ts, rfl⟩

/-- Visible-character count of the copy loop output. -/
theorem cropLoop_chrCount (width : Nat) (ts : List Tok) (vis : Nat) :
    chrCount (cropLoop width ts vis) = min (width - vis) (chrCount ts) := by
  induction ts generalizing vis with
  | nil => simp [cropLoop, chrCount]
  | cons t ts ih =>
    unfold cropLoop
    by_cases hv : vis < width
    · rw [if_pos hv]
      cases t with
      | esc cs =>
        rw [chrCount_cons, chrCount_cons, ih vis]
        simp only
        omega
      | chr c =>
        rw [chrCount_cons, chrCount_cons, ih (vis + 1)]
        simp only
        omega
    · rw [if_neg hv]
      rw [show chrCount [] = 0 from rfl]
      omega

/-- A prefix of a self-tokenizing token list is self-tokenizing. -/
theorem self_tokenizing_prefix {out p q : List Tok}
    (h : tokenize (flattenToks out) = out) (hpq : p ++ q = out) :
    tokenize (flattenToks p) = p := by
  apply tokenize_flattenToks_prefix (q := q)
  rw [h, hpq]

/-- The pop loop of `crop_visible`, on a self-tokenizing output with at least
`width ≥ 1` visible characters, stops at exactly `width - 1` visible
characters, and its result is still self-tokenizing. -/
theorem popLoop_spec (width : Nat) (hw : 1 ≤ width) :
    ∀ (out : List Tok), tokenize (flattenToks out) = out →
      width ≤ chrCount out →
      chrCount (popLoop width out) = width - 1 ∧
        tokenize (flattenToks (popLoop width out)) = popLoop width out := by
  have key : ∀ (n : Nat) (out : List Tok), out.length ≤ n →
      tokenize (flattenToks out) = out → width ≤ chrCount out →
      chrCount (popLoop width out) = width - 1 ∧
        tokenize (flattenToks (popLoop width out)) = popLoop width out := by
    intro n
    induction n with
    | zero =>
      intro out hlen hself hcnt
      rw [List.length_eq_zero.mp (Nat.le_zero.mp hlen)] at hcnt ⊢
      rw [show chrCount [] = 0 from rfl] at hcnt
      omega
    | succ n ih =>
      intro out hlen hself hcnt
      have hne : out ≠ [] := by
        intro hz
        rw [hz] at hcnt
        rw [show chrCount [] = 0 from rfl] at hcnt
        omega
      have hcond : out ≠ [] ∧ width ≤ visLen (flattenToks out) :=
        ⟨hne, by rw [visLen_flattenToks hself]; exact hcnt⟩
      rw [popLoop_eq, if_pos hcond]
      have hsplit : out.dropLast ++ [out.getLast hne] = out := List.dropLast_append_getLast hne
      have hselfd : tokenize (flattenToks out.dropLast) = out.dropLast :=
        self_tokenizing_prefix hself hsplit
      have hcc : chrCount out.dropLast + chrCount [out.getLast hne] = chrCount out := by
        rw [← chrCount_append, hsplit]
      have hlast_le : chrCount [out.getLast hne] ≤ 1 := by
        cases out.getLast hne <;> simp [chrCount, List.filter]
      have hdl : out.dropLast.length < out.length := by
        rw [List.length_dropLast]
        have : out.length ≠ 0 := fun hz => hne (List.length_eq_zero.mp hz)
        omega
      by_cases hrec : width ≤ chrCount out.dropLast
      · exact ih out.dropLast (by omega) hselfd hrec
      · have heq : chrCount out.dropLast = width - 1 := by omega
        have hstop : ¬(out.dropLast ≠ [] ∧ width ≤ visLen (flattenToks out.dropLast)) := by
          rintro ⟨h1, h2⟩
          rw [visLen_flattenToks hselfd] at h2
          omega
        rw [popLoop_eq, if_neg hstop]
        exact ⟨heq, hselfd⟩
  intro out hself hcnt
  exact key out.length out (Nat.le_refl _) hself hcnt

theorem visLen_nil : visLen [] = 0 := rfl

/-- C6: for every string s (which may contain ANSI style-escape sequences)
and every width w ≥ 2, `visible_len (crop_visible s w) = min w (visible_len s)`;
when `visible_len s > w` the trailing visible character is replaced by a
single ellipsis glyph so the visible length is exactly w. -/
theorem crop_visible_length_law (s : List Char) (w : Nat) (hw : 2 ≤ w) :
    visLen (cropVisible s w true) = min w (visLen s) := by
  unfold cropVisible
  rw [if_neg (by omega : ¬ w = 0)]
  obtain ⟨q, hq⟩ := cropLoop_prefix w (tokenize s) 0
  have hself : tokenize (flattenToks (cropLoop w (tokenize s) 0)) =
      cropLoop w (tokenize s) 0 :=
    tokenize_flattenToks_prefix (s := s) hq.symm
  have hcnt : chrCount (cropLoop w (tokenize s) 0) = min w (visLen s) := by
    rw [cropLoop_chrCount, stripAnsi_length_eq_chrCount]
    omega
  by_cases hcase : w < visLen s
  · rw [if_pos ⟨rfl, hcase, hw⟩]
    obtain ⟨hp1, hp2⟩ := popLoop_spec w (by omega) _ hself (by omega)
    rw [visLen_append_safe safeChar_ellipsis _ [], visLen_nil,
      visLen_flattenToks hp2, hp1]
    omega
  · rw [if_neg (fun hcon => hcase hcon.2.1)]
    rw [visLen_flattenToks hself, hcnt]

/-- C6 witness: the law applied at a concrete ANSI-styled string and width. -/
theorem crop_visible_length_law_witness :
    2 ≤ 4 ∧ visLen (cropVisible ([escChar, '[', '3', '1', 'm'] ++
      "abcdef".toList) 4 true) =
      min 4 (visLen ([escChar, '[', '3', '1', 'm'] ++ "abcdef".toList)) :=
  ⟨by decide, crop_visible_length_law _ 4 (by decide)⟩

theorem splitWsF_nil (n : Nat) : splitWsF n [] = [] := by
  cases n <;> rfl

theorem splitWsF_congr : ∀ (n m : Nat) (s : List Char), s.length ≤ n →
    s.length ≤ m → splitWsF n s = splitWsF m s := by
  intro n
  induction n with
  | zero =>
    intro m s hn hm
    rw [List.length_eq_zero.mp (Nat.le_zero.mp hn), splitWsF_nil, splitWsF_nil]
  | succ n ih =>
    intro m s hn hm
    match s with
    | [] => rw [splitWsF_nil, splitWsF_nil]
    | c :: cs =>
      match m with
      | 0 => simp at hm
      | m + 1 =>
        rw [splitWsF, splitWsF]
        simp only [List.length_cons] at hn hm
        by_cases hc : isWs c = true
        · simp only [hc, if_true]
          exact ih m cs (by omega) (by omega)
        · simp only [hc, if_false]
          have hdl : (cs.dropWhile (fun d => !isWs d)).length ≤ cs.length :=
            length_dropWhile_le _ _
          rw [ih m (cs.dropWhile (fun d => !isWs d)) (by omega) (by omega)]
          simp

theorem splitWs_nil : splitWs [] = [] := rfl

theorem splitWs_cons (c : Char) (cs : List Char) :
    splitWs (c :: cs) =
      if isWs c then splitWs cs
      else (c :: cs.takeWhile (fun d => !isWs d)) ::
        splitWs (cs.dropWhile (fun d => !isWs d)) := by
  show splitWsF (c :: cs).length (c :: cs) = _
  rw [List.length_cons, splitWsF]
  by_cases hc : isWs c = true
  · simp only [hc, if_true]
    rfl
  · simp only [hc, if_false]
    have hdl : (cs.dropWhile (fun d => !isWs d)).length ≤ cs.length :=
      length_dropWhile_le _ _
    rw [splitWsF_congr cs.length (cs.dropWhile (fun d => !isWs d)).length
      (cs.dropWhile (fun d => !isWs d)) (by omega) (Nat.le_refl _)]
    simp [splitWs]

/-- Every token produced by `split()` is nonempty and whitespace-free. -/
theorem splitWs_tokens_spec (s : List Char) :
    ∀ w ∈ splitWs s, w ≠ [] ∧ ∀ c ∈ w, isWs c = false := by
  have key : ∀ (n : Nat) (s : List Char), s.length ≤ n →
      ∀ w ∈ splitWs s, w ≠ [] ∧ ∀ c ∈ w, isWs c = false := by
    intro n
    induction n with
    | zero =>
      intro s hs
      rw [List.length_eq_zero.mp (Nat.le_zero.mp hs), splitWs_nil]
      simp
    | succ n ih =>
      intro s hs w hw
      match s with
      | [] => rw [splitWs_nil] at hw; simp at hw
      | c :: cs =>
        rw [splitWs_cons] at hw
        simp only [List.length_cons] at hs
        by_cases hc : isWs c = true
        · rw [if_pos hc] at hw
          exact ih cs (by omega) w hw
        · rw [if_neg hc] at hw
          simp only [Bool.not_eq_true] at hc
          rcases List.mem_cons.mp hw with hw1 | hw2
          · subst hw1
            refine ⟨by simp, ?_⟩
            intro x hx
            rcases List.mem_cons.mp hx with hx1 | hx2
            · subst hx1; exact hc
            · have := List.mem_takeWhile_imp hx2
              simpa using this
          · have hdl : (cs.dropWhile (fun d => !isWs d)).length ≤ cs.length :=
              length_dropWhile_le _ _
            exact ih (cs.dropWhile (fun d => !isWs d)) (by omega) w hw2
  exact key s.length s (Nat.le_refl _)

theorem spaceJoin_single (w : List Char) : spaceJoin [w] = w := rfl

theorem spaceJoin_cons2 (w : List Char) {ws : List (List Char)} (h : ws ≠ []) :
    spaceJoin (w :: ws) = w ++ ' ' :: spaceJoin ws := by
  match ws with
  | [] => exact absurd rfl h
  | x :: xs => rfl

theorem spaceJoin_ne_nil {w : List Char} (hw : w ≠ [])
    (ws : List (List Char)) : spaceJoin (w :: ws) ≠ [] := by
  match ws with
  | [] => exact hw
  | x :: xs =>
    rw [spaceJoin_cons2 w (by simp)]
    intro hcon
    exact hw (List.append_eq_nil.mp hcon).1

theorem takeWhile_all_append (p : Char → Bool) {u : List Char} (v : List Char)
    (hu : ∀ x ∈ u, p x = true) : (u ++ v).takeWhile p = u ++ v.takeWhile p := by
  induction u with
  | nil => simp
  | cons a tl ih =>
    rw [List.cons_append, List.takeWhile_cons, hu a (by simp)]
    simp only [if_true]
    rw [ih (fun x hx => hu x (by simp [hx]))]
    rfl

theorem dropWhile_all_append (p : Char → Bool) {u : List Char} (v : List Char)
    (hu : ∀ x ∈ u, p x = true) : (u ++ v).dropWhile p = v.dropWhile p := by
  induction u with
  | nil => simp
  | cons a tl ih =>
    rw [List.cons_append, List.dropWhile_cons, hu a (by simp)]
    simp only [if_true]
    exact ih (fun x hx => hu x (by simp [hx]))

theorem isWs_space : isWs ' ' = true := by decide

/-- A nonempty whitespace-free string is a single `split()` token. -/
theorem splitWs_single {w : List Char} (hw : w ≠ [])
    (hnws : ∀ c ∈ w, isWs c = false) : splitWs w = [w] := by
  match w with
  | [] => exact absurd rfl hw
  | c :: cs =>
    rw [splitWs_cons, if_neg (by simp [hnws c (by simp)])]
    have htake : cs.takeWhile (fun d => !isWs d) = cs :=
      List.takeWhile_eq_self_iff.mpr (fun a ha => by simp [hnws a (by simp [ha])])
    have hdrop : cs.dropWhile (fun d => !isWs d) = [] :=
      List.dropWhile_eq_nil_iff.mpr (fun a ha => by simp [hnws a (by simp [ha])])
    rw [htake, hdrop, splitWs_nil]

/-- Splitting a token, a space, and a remainder peels off the token. -/
theorem splitWs_token_append {w : List Char} (hw : w ≠ [])
    (hnws : ∀ c ∈ w, isWs c = false) (rest : List Char) :
    splitWs (w ++ ' ' :: rest) = w :: splitWs rest := by
  match w with
  | [] => exact absurd rfl hw
  | c :: cs =>
    rw [List.cons_append, splitWs_cons, if_neg (by simp [hnws c (by simp)])]
    have hcs : ∀ x ∈ cs, (fun d => !isWs d) x = true :=
      fun x hx => by simp [hnws x (by simp [hx])]
    rw [takeWhile_all_append _ _ hcs, dropWhile_all_append _ _ hcs]
    rw [show (' ' :: rest).takeWhile (fun d => !isWs d) = [] from by
      simp [List.takeWhile_cons, isWs_space]]
    rw [show (' ' :: rest).dropWhile (fun d => !isWs d) = ' ' :: rest from by
      simp [List.dropWhile_cons, isWs_space]]
    rw [splitWs_cons, if_pos isWs_space]
    simp

/-- Splitting is a left inverse of the single-space join of nonempty
whitespace-free tokens. -/
theorem splitWs_spaceJoin : ∀ (g : List (List Char)), g ≠ [] →
    (∀ w ∈ g, w ≠ [] ∧ ∀ c ∈ w, isWs c = false) →
    splitWs (spaceJoin g) = g := by
  intro g
  induction g with
  | nil => intro h; exact absurd rfl h
  | cons w ws ih =>
    intro hne hg
    match ws with
    | [] =>
      rw [spaceJoin_single]
      exact splitWs_single (hg w (by simp)).1 (hg w (by simp)).2
    | x :: xs =>
      rw [spaceJoin_cons2 w (by simp)]
      rw [splitWs_token_append (hg w (by simp)).1 (hg w (by simp)).2]
      rw [ih (by simp) (fun y hy => hg y (by simp [hy]))]

theorem spaceJoin_append_single : ∀ (g : List (List Char)), g ≠ [] →
    ∀ (w : List Char), spaceJoin (g ++ [w]) = spaceJoin g ++ ' ' :: w := by
  intro g
  induction g with
  | nil => intro h; exact absurd rfl h
  | cons x xs ih =>
    intro hne w
    match xs with
    | [] => rfl
    | y :: ys =>
      rw [List.cons_append, spaceJoin_cons2 x (by simp),
        spaceJoin_cons2 x (by simp), ih (by simp) w]
      simp

theorem spaceJoin_append : ∀ (a b : List (List Char)), a ≠ [] → b ≠ [] →
    spaceJoin (a ++ b) = spaceJoin a ++ ' ' :: spaceJoin b := by
  intro a
  induction a with
  | nil => intro b h; exact fun _ => absurd rfl h
  | cons x xs iha =>
    intro b hxne hbne
    match xs with
    | [] =>
      rw [spaceJoin_single, List.singleton_append, spaceJoin_cons2 x hbne]
    | z :: zs =>
      rw [List.cons_append, spaceJoin_cons2 x (by simp),
        spaceJoin_cons2 x (by simp), iha b (by simp) hbne]
      simp

theorem visLen_spaceJoin_snoc {g : List (List Char)} (hg : g ≠ [])
    (w : List Char) :
    visLen (spaceJoin (g ++ [w])) = visLen (spaceJoin g) + 1 + visLen w := by
  rw [spaceJoin_append_single g hg w, visLen_append_safe safeChar_space]

theorem wrapStep_init (W : Nat) (lines : List (List Char)) {w : List Char}
    (hfit : visLen w ≤ W) :
    wrapStep W (lines, [], 0) w = (lines, w, visLen w) := by
  unfold wrapStep
  simp only [if_pos rfl]
  rw [if_pos (by simpa using hfit)]
  simp

/-- Processing tokens that each fit keeps the wrapper state good. -/
theorem wrap_fold_good (W : Nat) : ∀ (toks : List (List Char))
    (st : List (List Char) × List Char × Nat),
    (∀ w ∈ toks, (w ≠ [] ∧ ∀ c ∈ w, isWs c = false) ∧ visLen w ≤ W) →
    goodState W st → goodState W (toks.foldl (wrapStep W) st) := by
  intro toks
  induction toks with
  | nil => intro st htoks hst; exact hst
  | cons w rest ih =>
    intro st htoks hst
    rw [List.foldl_cons]
    apply ih _ (fun x hx => htoks x (by simp [hx]))
    obtain ⟨hlines, g, hgne, hgtoks, hcur, hclen, hfit⟩ := hst
    obtain ⟨⟨hwne, hwws⟩, hwfit⟩ := htoks w (by simp)
    obtain ⟨lines, cur, clen⟩ := st
    simp only at hlines hcur hclen hfit
    have hcurne : cur ≠ [] := by
      rw [hcur]
      match g, hgne with
      | x :: xs, _ => exact spaceJoin_ne_nil (hgtoks x (by simp)).1 xs
    unfold wrapStep
    simp only [if_neg hcurne]
    by_cases hcond : clen + (1 + visLen w) ≤ W
    · rw [if_pos hcond]
      refine ⟨hlines, g ++ [w], by simp, ?_, ?_, ?_, ?_⟩
      · intro y hy
        rcases List.mem_append.mp hy with hy1 | hy2
        · exact hgtoks y hy1
        · rw [List.mem_singleton.mp hy2]
          exact ⟨hwne, hwws⟩
      · show cur ++ ' ' :: w = spaceJoin (g ++ [w])
        rw [hcur, spaceJoin_append_single g hgne w]
      · show clen + (1 + visLen w) = visLen (cur ++ ' ' :: w)
        rw [visLen_append_safe safeChar_space, hclen]
        omega
      · show visLen (cur ++ ' ' :: w) ≤ W
        rw [visLen_append_safe safeChar_space]
        omega
    · rw [if_neg hcond]
      constructor
      · intro l hl
        rcases List.mem_append.mp hl with hl1 | hl2
        · exact hlines l hl1
        · rw [List.mem_singleton.mp hl2]
          exact ⟨g, hgne, hgtoks, hcur, by omega⟩
      · exact ⟨[w], by simp, by simpa using ⟨hwne, hwws⟩,
          (spaceJoin_single w).symm, rfl, hwfit⟩

/-- Tokens that all fit are simply accumulated onto the current line. -/
theorem wrap_fold_all_fit (W : Nat) : ∀ (g2 : List (List Char))
    (lines : List (List Char)) (g1 : List (List Char)), g1 ≠ [] →
    (∀ w ∈ g1 ++ g2, w ≠ [] ∧ ∀ c ∈ w, isWs c = false) →
    visLen (spaceJoin (g1 ++ g2)) ≤ W →
    g2.foldl (wrapStep W) (lines, spaceJoin g1, visLen (spaceJoin g1)) =
      (lines, spaceJoin (g1 ++ g2), visLen (spaceJoin (g1 ++ g2))) := by
  intro g2
  induction g2 with
  | nil => intro lines g1 hg1 htoks hfit; simp
  | cons w rest ih =>
    intro lines g1 hg1 htoks hfit
    rw [List.foldl_cons]
    have hcurne : spaceJoin g1 ≠ [] := by
      match g1, hg1 with
      | x :: xs, _ => exact spaceJoin_ne_nil ((htoks x (by simp)).1) xs
    have hsnoc : visLen (spaceJoin (g1 ++ [w])) =
        visLen (spaceJoin g1) + 1 + visLen w := visLen_spaceJoin_snoc hg1 w
    have hmono : visLen (spaceJoin (g1 ++ [w])) ≤ visLen (spaceJoin (g1 ++ w :: rest)) := by
      match rest with
      | [] => exact Nat.le_refl _
      | y :: ys =>
        have hsplit2 : g1 ++ w :: y :: ys = (g1 ++ [w]) ++ y :: ys := by simp
        rw [hsplit2]
        rw [spaceJoin_append (g1 ++ [w]) (y :: ys) (by simp) (by simp)]
        rw [visLen_append_safe safeChar_space]
        omega
    have hstep : wrapStep W (lines, spaceJoin g1, visLen (spaceJoin g1)) w =
        (lines, spaceJoin (g1 ++ [w]), visLen (spaceJoin (g1 ++ [w]))) := by
      unfold wrapStep
      simp only [if_neg hcurne]
      rw [if_pos (by omega)]
      rw [spaceJoin_append_single g1 hg1 w, visLen_append_safe safeChar_space]
      simp only [Prod.mk.injEq, true_and]
      omega
    rw [hstep]
    have hassoc : (g1 ++ [w]) ++ rest = g1 ++ w :: rest := by simp
    rw [← hassoc] at hfit ⊢
    exact ih lines (g1 ++ [w]) (by simp) (by rw [hassoc]; exact htoks) hfit

/-- A good line re-wraps to exactly itself. -/
theorem wrap_line_self (W : Nat) {l : List Char} (h : goodLine W l) :
    wrapVisible l W = [l] := by
  obtain ⟨g, hgne, hgtoks, hl, hfit⟩ := h
  match g, hgne with
  | w1 :: grest, _ =>
    have hlne : l ≠ [] := by
      rw [hl]
      exact spaceJoin_ne_nil (hgtoks w1 (by simp)).1 grest
    unfold wrapVisible
    rw [if_neg hlne]
    have hsplit : splitWs l = w1 :: grest := by
      rw [hl]
      exact splitWs_spaceJoin _ (by simp) hgtoks
    rw [hsplit, List.foldl_cons]
    have hw1fit : visLen w1 ≤ W := by
      have : visLen w1 ≤ visLen (spaceJoin (w1 :: grest)) := by
        match grest with
        | [] => rw [spaceJoin_single]
        | y :: ys =>
          rw [spaceJoin_cons2 w1 (by simp)]
          rw [visLen_append_safe safeChar_space]
          omega
      rw [← hl] at this
      omega
    rw [wrapStep_init W [] hw1fit]
    have hfold := wrap_fold_all_fit W grest [] [w1] (by simp)
      (by simpa using hgtoks) (by rw [List.singleton_append, ← hl]; exact hfit)
    rw [show spaceJoin [w1] = w1 from rfl] at hfold
    rw [hfold]
    simp only [List.singleton_append, ← hl]
    unfold wrapFinish
    rw [if_neg (show ¬ (([], l, visLen l) :
      List (List Char) × List Char × Nat).2.1 = [] from hlne)]
    rfl

theorem flatMap_wrap_self (W : Nat) : ∀ (L : List (List Char)),
    (∀ l ∈ L, goodLine W l) →
    L.flatMap (fun l => wrapVisible l W) = L := by
  intro L
  induction L with
  | nil => intro h; rfl
  | cons l rest ih =>
    intro h
    rw [List.flatMap_cons, wrap_line_self W (h l (by simp)),
      ih (fun x hx => h x (by simp [hx]))]
    rfl

/-- The wrapper output on a nonempty text with all tokens fitting the width
is either the single empty line (whitespace-only text) or a list of good
lines. -/
theorem wrap_output_good (t : List Char) (W : Nat) (ht : t ≠ [])
    (htok : ∀ w ∈ splitWs t, visLen w ≤ W) :
    wrapVisible t W = [[]] ∨ ∀ l ∈ wrapVisible t W, goodLine W l := by
  unfold wrapVisible
  rw [if_neg ht]
  match hsp : splitWs t with
  | [] =>
    left
    rw [List.foldl_nil]
    rfl
  | w1 :: rest =>
    right
    have htoks : ∀ w ∈ w1 :: rest, (w ≠ [] ∧ ∀ c ∈ w, isWs c = false) ∧ visLen w ≤ W := by
      intro w hw
      rw [← hsp] at hw
      exact ⟨splitWs_tokens_spec t w hw, htok w hw⟩
    rw [List.foldl_cons,
      wrapStep_init W [] (htoks w1 (by simp)).2]
    have hst0 : goodState W ([], w1, visLen w1) := by
      refine ⟨by simp, [w1], by simp, by simpa using (htoks w1 (by simp)).1,
        (spaceJoin_single w1).symm, rfl, (htoks w1 (by simp)).2⟩
    have hgood := wrap_fold_good W rest ([], w1, visLen w1)
      (fun w hw => htoks w (by simp [hw])) hst0
    set st := List.foldl (wrapStep W) ([], w1, visLen w1) rest with hstdef
    obtain ⟨hlines2, g, hgne, hgtoks, hcur2, hclen2, hfit2⟩ := hgood
    have hcur2ne : st.2.1 ≠ [] := by
      rw [hcur2]
      match g, hgne with
      | x :: xs, _ => exact spaceJoin_ne_nil (hgtoks x (by simp)).1 xs
    unfold wrapFinish
    rw [if_neg hcur2ne]
    intro l hl
    rcases List.mem_append.mp hl with hl1 | hl2
    · exact hlines2 l hl1
    · rw [List.mem_singleton.mp hl2]
      exact ⟨g, hgne, hgtoks, hcur2, hfit2⟩

theorem wrapVisible_nil (W : Nat) : wrapVisible [] W = [[]] := by
  unfold wrapVisible
  rw [if_pos rfl]

/-- C7 counterexample: wrapping the wrapper output of a single over-long
token again at the same width does not reproduce it (the leading empty line
artifact duplicates). -/
theorem wrap_idempotence_counterexample :
    ¬ ((wrapVisible "a_very_long_single_token_without_spaces".toList 10).flatMap
        (fun l => wrapVisible l 10) =
      wrapVisible "a_very_long_single_token_without_spaces".toList 10) := by
  decide

/-- C7 (amended): idempotence of the wrapper holds whenever every
whitespace-delimited token of the text has visible length at most the width
(no over-long tokens): re-wrapping each produced line at the same width
reproduces the line sequence. -/
theorem wrap_idempotent (t : List Char) (W : Nat) (hW : 1 ≤ W)
    (htok : ∀ w ∈ splitWs t, visLen w ≤ W) :
    (wrapVisible t W).flatMap (fun l => wrapVisible l W) = wrapVisible t W := by
  have hnilcase : ([([] : List Char)]).flatMap (fun l => wrapVisible l W) = [[]] := by
    rw [List.flatMap_cons, List.flatMap_nil, wrapVisible_nil]
    rfl
  by_cases ht : t = []
  · rw [ht, wrapVisible_nil]
    exact hnilcase
  · rcases wrap_output_good t W ht htok with h | h
    · rw [h]
      exact hnilcase
    · exact flatMap_wrap_self W _ h

/-- C7 witness: idempotence at a concrete wrapped text. -/
theorem wrap_idempotent_witness :
    (1 ≤ 5 ∧ ∀ w ∈ splitWs "ab cd ef".toList, visLen w ≤ 5) ∧
      (wrapVisible "ab cd ef".toList 5).flatMap (fun l => wrapVisible l 5) =
        wrapVisible "ab cd ef".toList 5 :=
  ⟨⟨by decide, by decide⟩, wrap_idempotent _ 5 (by decide) (by decide)⟩

/-- C3 counterexample: the wrapper output for the spec's over-long token at
width 10 is two lines (a leading empty line then the token), not exactly one
line consisting of the token. -/
theorem wrap_overlong_counterexample :
    (wrapVisible "a_very_long_single_token_without_spaces".toList 10).length = 2 ∧
      ¬ (wrapVisible "a_very_long_single_token_without_spaces".toList 10 =
        ["a_very_long_single_token_without_spaces".toList]) := by
  constructor
  · decide
  · decide

/-- C3 (amended): for a cell that is a single whitespace-free token longer
than the width, the wrapper emits the token unbroken on its own line (no
mid-word splitting), but preceded by one spurious empty line: the output is
exactly `["", token]`, two lines. -/
theorem wrap_overlong_token (t : List Char) (W : Nat) (hW : 1 ≤ W)
    (hnws : ∀ c ∈ t, isWs c = false) (hlen : W < visLen t) :
    wrapVisible t W = [[], t] := by
  have htne : t ≠ [] := by
    intro hz
    rw [hz, visLen_nil] at hlen
    omega
  have hstep : wrapStep W ([], [], 0) t = ([[]], t, visLen t) := by
    unfold wrapStep
    rw [if_neg (by simpa using by omega :
      ¬ (0 + ((if ([] : List Char) = [] then 0 else 1) + visLen t) ≤ W))]
    rfl
  unfold wrapVisible wrapFinish
  rw [if_neg htne, splitWs_single htne hnws, List.foldl_cons, List.foldl_nil, hstep]
  rw [if_neg (show ¬ (([[]], t, visLen t) : List (List Char) × List Char × Nat).2.1 = [] from htne)]
  rfl

/-- C3 witness for the amended statement, at the spec's own example. -/
theorem wrap_overlong_token_witness :
    (1 ≤ 10 ∧ (∀ c ∈ "a_very_long_single_token_without_spaces".toList,
        isWs c = false) ∧
      10 < visLen "a_very_long_single_token_without_spaces".toList) ∧
    wrapVisible "a_very_long_single_token_without_spaces".toList 10 =
      [[], "a_very_long_single_token_without_spaces".toList] :=
  ⟨⟨by decide, by decide, by decide⟩,
    wrap_overlong_token _ 10 (by decide) (by decide) (by decide)⟩

theorem getD_set_self {ws : List Nat} {j : Nat} (hj : j < ws.length) (v : Nat) :
    (ws.set j v).getD j 0 = v := by
  rw [List.getD_eq_getElem?_getD, List.getElem?_set]
  simp [hj]

theorem getD_set_ne (ws : List Nat) {i j : Nat} (h : j ≠ i) (v : Nat) :
    (ws.set j v).getD i 0 = ws.getD i 0 := by
  rw [List.getD_eq_getElem?_getD, List.getElem?_set]
  simp [h, List.getD_eq_getElem?_getD]

theorem sum_set_getD_add : ∀ (ws : List Nat) (j : Nat), j < ws.length →
    ∀ (add : Nat), (ws.set j (ws.getD j 0 + add)).sum = ws.sum + add := by
  intro ws
  induction ws with
  | nil => intro j hj; simp at hj
  | cons x tl ih =>
    intro j hj add
    match j with
    | 0 => simp [List.set, List.getD]; omega
    | j + 1 =>
      simp only [List.length_cons] at hj
      have := ih j (by omega) add
      simp only [List.set, List.sum_cons]
      rw [show (x :: tl).getD (j + 1) 0 = tl.getD j 0 from rfl, this]
      omega

theorem getD_map_range (f : Nat → Nat) {n j : Nat} (hj : j < n) :
    ((List.range n).map f).getD j 0 = f j := by
  rw [List.getD_eq_getElem ((List.range n).map f) 0
    (by simpa using hj)]
  rw [List.getElem_map, List.getElem_range]

theorem sum_map_range_le {f g : Nat → Nat} : ∀ (n : Nat), (∀ j, j < n → f j ≤ g j) →
    ((List.range n).map f).sum ≤ ((List.range n).map g).sum := by
  intro n
  induction n with
  | zero => intro h; simp
  | succ n ih =>
    intro h
    rw [List.range_succ, List.map_append, List.map_append,
      List.sum_append, List.sum_append]
    have h1 := ih (fun j hj => h j (by omega))
    have h2 := h n (by omega)
    simp only [List.map_cons, List.map_nil, List.sum_cons, List.sum_nil]
    omega

theorem colInv_getD {colspecs : List ColSpec} (hinv : colInv colspecs)
    {j : Nat} (hj : j < colspecs.length) :
    1 ≤ (colspecs.getD j default).min_width ∧
      ∀ m, (colspecs.getD j default).max_width = some m →
        (colspecs.getD j default).min_width ≤ m := by
  have hmem : colspecs.getD j default ∈ colspecs := by
    rw [List.getD_eq_getElem colspecs default hj]
    exact List.getElem_mem _
  obtain ⟨h1, h2⟩ := hinv _ hmem
  refine ⟨h1, ?_⟩
  intro m hm
  rw [hm] at h2
  simpa using h2

theorem computeIdeal_ge_min (colspecs : List ColSpec)
    (rows : List (List (List Char))) {j : Nat} (hj : j < colspecs.length) :
    (colspecs.getD j default).min_width ≤ (computeIdeal colspecs rows).getD j 0 := by
  unfold computeIdeal
  rw [getD_map_range _ hj]
  exact Nat.le_max_left _ _

theorem pyOr_none (d : Nat) : pyOr none d = d := rfl

theorem pyOr_some_pos {m : Nat} (h : 1 ≤ m) (d : Nat) : pyOr (some m) d = m := by
  simp only [pyOr]
  rw [if_neg (by omega)]

theorem computeIdeal_le_max {colspecs : List ColSpec}
    (rows : List (List (List Char))) {j : Nat} (hj : j < colspecs.length)
    {m : Nat} (hm : (colspecs.getD j default).max_width = some m)
    (hmin : (colspecs.getD j default).min_width ≤ m) (hm1 : 1 ≤ m) :
    (computeIdeal colspecs rows).getD j 0 ≤ m := by
  unfold computeIdeal
  rw [getD_map_range _ hj]
  unfold idealOf
  rw [hm, pyOr_some_pos hm1]
  omega

theorem underWidths0_length (colspecs : List ColSpec)
    (rows : List (List (List Char))) :
    (underWidths0 colspecs rows).length = colspecs.length := by
  unfold underWidths0
  simp

theorem underWidths0_bounds {colspecs : List ColSpec} (hinv : colInv colspecs)
    (rows : List (List (List Char))) :
    widthBounds colspecs (underWidths0 colspecs rows) := by
  intro j hj
  obtain ⟨hmin1, hminmax⟩ := colInv_getD hinv hj
  unfold underWidths0
  rw [getD_map_range _ hj]
  constructor
  · have hge := computeIdeal_ge_min colspecs rows hj
    match hmx : (colspecs.getD j default).max_width with
    | none =>
      rw [pyOr_none]
      omega
    | some m =>
      have hle := hminmax m hmx
      rw [pyOr_some_pos (by omega)]
      omega
  · intro m hm
    have hle := hminmax m hm
    rw [hm, pyOr_some_pos (by omega)]
    omega

theorem underWidths0_sum_le (colspecs : List ColSpec)
    (rows : List (List (List Char))) :
    (underWidths0 colspecs rows).sum ≤ sumIdeal colspecs rows := by
  have h1 : (underWidths0 colspecs rows).sum ≤ (computeIdeal colspecs rows).sum := by
    unfold underWidths0 computeIdeal
    apply sum_map_range_le
    intro j hj
    rw [getD_map_range _ hj]
    exact min_le_left _ _
  unfold sumIdeal
  split
  · omega
  · omega

theorem wrapCols_lt (colspecs : List ColSpec) :
    ∀ i ∈ wrapCols colspecs, i < colspecs.length := by
  intro i hi
  unfold wrapCols at hi
  have := (List.mem_filter.mp hi).1
  exact List.mem_range.mp this

/-- The leftover loop preserves the per-column bounds (under the data-model
invariant, which rules out a declared maximum of 0) and the list length. -/
theorem leftoverLoop_bounds {colspecs : List ColSpec} (hinv : colInv colspecs)
    (col_space : Nat) (wrap_cols : List Nat)
    (hwrap : ∀ i ∈ wrap_cols, i < colspecs.length) :
    ∀ (fuel : Nat) (ws : List Nat) (leftover k : Nat),
      ws.length = colspecs.length → widthBounds colspecs ws →
      (leftoverLoop colspecs col_space wrap_cols fuel ws leftover k).length =
          colspecs.length ∧
        widthBounds colspecs
          (leftoverLoop colspecs col_space wrap_cols fuel ws leftover k) := by
  intro fuel
  induction fuel with
  | zero => intro ws leftover k hlen hb; exact ⟨hlen, hb⟩
  | succ n ih =>
    intro ws leftover k hlen hb
    unfold leftoverLoop
    by_cases hcond : (0 < leftover ∧ wrap_cols ≠ [])
    · rw [if_pos hcond]
      set j := wrap_cols.getD (k % wrap_cols.length) 0 with hjdef
      have hjlt : j < colspecs.length := by
        apply hwrap
        rw [hjdef]
        have hne : wrap_cols.length ≠ 0 := by
          intro hz
          exact hcond.2 (List.length_eq_zero.mp hz)
        rw [List.getD_eq_getElem wrap_cols 0 (Nat.mod_lt _ (by omega))]
        exact List.getElem_mem _
      by_cases hadd : loopAdd colspecs col_space ws leftover j = 0
      · rw [if_pos hadd]
        split
        · exact ⟨hlen, hb⟩
        · exact ih ws leftover (k + 1) hlen hb
      · rw [if_neg hadd]
        apply ih
        · rw [List.length_set]
          exact hlen
        · intro i hi
          by_cases hij : j = i
          · subst hij
            rw [getD_set_self (by omega) _]
            constructor
            · have := (hb j hjlt).1
              omega
            · intro m hm
              have hmle := (hb j hjlt).2 m hm
              have hm1 : 1 ≤ m := by
                obtain ⟨h1, h2⟩ := colInv_getD hinv hjlt
                have := h2 m hm
                omega
              have hadd_le : loopAdd colspecs col_space ws leftover j ≤
                  m - ws.getD j 0 := by
                unfold loopAdd
                rw [hm, pyOr_some_pos (by omega)]
                omega
              omega
          · rw [getD_set_ne ws hij]
            exact hb i hi
    · rw [if_neg hcond]
      exact ⟨hlen, hb⟩

/-- The leftover loop never allocates beyond `col_space`: the sum of widths
plus the remaining leftover is conserved or shrinks. -/
theorem leftoverLoop_sum {colspecs : List ColSpec} (col_space : Nat)
    (wrap_cols : List Nat) (hwrap : ∀ i ∈ wrap_cols, i < colspecs.length) :
    ∀ (fuel : Nat) (ws : List Nat) (leftover k : Nat),
      ws.length = colspecs.length → ws.sum + leftover ≤ col_space →
      (leftoverLoop colspecs col_space wrap_cols fuel ws leftover k).sum ≤ col_space := by
  intro fuel
  induction fuel with
  | zero =>
    intro ws leftover k hlen hsum
    unfold leftoverLoop
    omega
  | succ n ih =>
    intro ws leftover k hlen hsum
    unfold leftoverLoop
    by_cases hcond : (0 < leftover ∧ wrap_cols ≠ [])
    · rw [if_pos hcond]
      set j := wrap_cols.getD (k % wrap_cols.length) 0 with hjdef
      have hjlt : j < ws.length := by
        rw [hlen]
        apply hwrap
        rw [hjdef]
        have hne : wrap_cols.length ≠ 0 := by
          intro hz
          exact hcond.2 (List.length_eq_zero.mp hz)
        rw [List.getD_eq_getElem wrap_cols 0 (Nat.mod_lt _ (by omega))]
        exact List.getElem_mem _
      by_cases hadd : loopAdd colspecs col_space ws leftover j = 0
      · rw [if_pos hadd]
        split
        · omega
        · exact ih ws leftover (k + 1) hlen hsum
      · rw [if_neg hadd]
        apply ih
        · rw [List.length_set]
          exact hlen
        · rw [sum_set_getD_add ws j hjlt]
          have : loopAdd colspecs col_space ws leftover j ≤ leftover := by
            unfold loopAdd
            omega
          omega
    · rw [if_neg hcond]
      omega

theorem overWidths0_length (w start_x gap : Nat) (colspecs : List ColSpec)
    (rows : List (List (List Char))) :
    (overWidths0 w start_x gap colspecs rows).length = colspecs.length := by
  unfold overWidths0
  simp

theorem overWidths0_bounds {colspecs : List ColSpec} (hinv : colInv colspecs)
    (w start_x gap : Nat) (rows : List (List (List Char)))
    (hbr : colSpace w start_x gap colspecs.length ≤ sumIdeal colspecs rows) :
    widthBounds colspecs (overWidths0 w start_x gap colspecs rows) := by
  intro j hj
  obtain ⟨hmin1, hminmax⟩ := colInv_getD hinv hj
  unfold overWidths0
  rw [getD_map_range _ hj]
  refine ⟨Nat.le_max_left _ _, ?_⟩
  intro m hm
  have hle := hminmax m hm
  have hshare : colSpace w start_x gap colspecs.length *
      (computeIdeal colspecs rows).getD j 0 / sumIdeal colspecs rows ≤
      (computeIdeal colspecs rows).getD j 0 := by
    apply Nat.div_le_of_le_mul
    exact Nat.mul_le_mul_right _ hbr
  have hideal := computeIdeal_le_max rows hj hm hle (by omega)
  omega

theorem diffUpd_bounds {colspecs : List ColSpec} {ws : List Nat} {idx : Nat}
    (step : Int) (hlen : ws.length = colspecs.length)
    (hidx : idx < colspecs.length) (hb : widthBounds colspecs ws) :
    (diffUpd colspecs ws idx step).length = colspecs.length ∧
      widthBounds colspecs (diffUpd colspecs ws idx step) := by
  unfold diffUpd
  by_cases hok : diffOk colspecs ws idx step = true
  · rw [if_pos hok]
    unfold diffOk at hok
    rw [Bool.and_eq_true] at hok
    obtain ⟨hok1, hok2⟩ := hok
    rw [decide_eq_true_iff] at hok1
    constructor
    · rw [List.length_set]
      exact hlen
    · intro i hi
      by_cases hij : idx = i
      · subst hij
        rw [getD_set_self (by omega) _]
        constructor
        · omega
        · intro m hm
          rw [hm] at hok2
          simp only [decide_eq_true_iff] at hok2
          omega
      · rw [getD_set_ne ws hij]
        exact hb i hi
  · rw [if_neg hok]
    exact ⟨hlen, hb⟩

theorem diffLoop_bounds {colspecs : List ColSpec} (candidates : List Nat)
    (hcand : ∀ i ∈ candidates, i < colspecs.length) :
    ∀ (fuel : Nat) (ws : List Nat) (diff : Int) (j : Nat),
      ws.length = colspecs.length → widthBounds colspecs ws →
      (diffLoop colspecs candidates fuel ws diff j).length = colspecs.length ∧
        widthBounds colspecs (diffLoop colspecs candidates fuel ws diff j) := by
  intro fuel
  induction fuel with
  | zero => intro ws diff j hlen hb; exact ⟨hlen, hb⟩
  | succ n ih =>
    intro ws diff j hlen hb
    unfold diffLoop
    by_cases hcond : (diff ≠ 0 ∧ colspecs.length ≠ 0)
    · rw [if_pos hcond]
      have hidx : candidates.getD (j % candidates.length) 0 < colspecs.length := by
        match hc : candidates with
        | [] =>
          rw [show ([] : List Nat).getD (j % ([] : List Nat).length) 0 = 0 from rfl]
          omega
        | c :: cs =>
          apply hcand
          rw [← hc]
          rw [List.getD_eq_getElem candidates 0
            (Nat.mod_lt _ (by rw [hc]; simp))]
          exact List.getElem_mem _
      obtain ⟨hulen, hub⟩ := diffUpd_bounds
        (if 0 < diff then 1 else -1) hlen hidx hb
      split
      · exact ⟨hulen, hub⟩
      · exact ih _ _ (j + 1) hulen hub
    · rw [if_neg hcond]
      exact ⟨hlen, hb⟩

theorem overCandidates_lt (colspecs : List ColSpec) :
    ∀ i ∈ overCandidates colspecs, i < colspecs.length := by
  intro i hi
  unfold overCandidates at hi
  match hw : wrapCols colspecs with
  | [] =>
    rw [hw] at hi
    exact List.mem_range.mp hi
  | c :: cs =>
    rw [hw] at hi
    apply wrapCols_lt colspecs
    rw [hw]
    exact hi

/-- C5: under the ColumnSpec data-model invariant (minimum ≥ 1 and
minimum ≤ maximum when a maximum is declared), every column width computed by
the solver of `render_table` — in either branch, including the leftover and
remainder redistribution loops — lies within that column's declared
[minimum, maximum] bounds (maximum unbounded when unset), for every row list
and terminal geometry. -/
theorem solver_width_bounds (w start_x gap : Nat) (colspecs : List ColSpec)
    (rows : List (List (List Char))) (hinv : colInv colspecs) :
    ∀ j, j < colspecs.length →
      (colspecs.getD j default).min_width ≤
          (solveWidths w start_x gap colspecs rows).getD j 0 ∧
        ∀ m, (colspecs.getD j default).max_width = some m →
          (solveWidths w start_x gap colspecs rows).getD j 0 ≤ m := by
  have hbounds : widthBounds colspecs (solveWidths w start_x gap colspecs rows) := by
    unfold solveWidths
    split
    · exact (leftoverLoop_bounds hinv _ _ (wrapCols_lt colspecs) _ _ _ _
        (underWidths0_length colspecs rows) (underWidths0_bounds hinv rows)).2
    · rename_i hbr
      exact (diffLoop_bounds _ (overCandidates_lt colspecs) _ _ _ _
        (overWidths0_length w start_x gap colspecs rows)
        (overWidths0_bounds hinv w start_x gap rows (by omega))).2
  exact hbounds

/-- C5 witness: the bound law at a concrete table (column 0 carries a
declared maximum). -/
theorem solver_width_bounds_witness :
    colInv [⟨"a".toList, 2, some 5, true, true⟩, ⟨"b".toList, 3, none, false, true⟩] ∧
    (0 < ([⟨"a".toList, 2, some 5, true, true⟩,
      ⟨"b".toList, 3, none, false, true⟩] : List ColSpec).length) ∧
    ((([⟨"a".toList, 2, some 5, true, true⟩, ⟨"b".toList, 3, none, false, true⟩] :
        List ColSpec).getD 0 default).min_width ≤
      (solveWidths 20 0 2 [⟨"a".toList, 2, some 5, true, true⟩,
        ⟨"b".toList, 3, none, false, true⟩]
        [[ "hello world hello".toList, "x".toList ]]).getD 0 0 ∧
      ∀ m, (([⟨"a".toList, 2, some 5, true, true⟩, ⟨"b".toList, 3, none, false, true⟩] :
          List ColSpec).getD 0 default).max_width = some m →
        (solveWidths 20 0 2 [⟨"a".toList, 2, some 5, true, true⟩,
          ⟨"b".toList, 3, none, false, true⟩]
          [[ "hello world hello".toList, "x".toList ]]).getD 0 0 ≤ m) :=
  ⟨by decide, by decide,
    solver_width_bounds 20 0 2 _ _ (by decide) 0 (by decide)⟩

/-- C1 (amended): in the under-budget branch (`sum_ideal <= col_space`), with
at least one column, all minimum widths ≥ 1, `start_x = 0`, and the column
minimums plus gaps fitting the terminal, the solved widths plus inter-column
gaps never exceed the terminal width.  (In the over-budget branch the
remainder loop can fail to converge and exceed the terminal width; see the
counterexample.) -/
theorem solver_budget_under (w gap : Nat) (colspecs : List ColSpec)
    (rows : List (List (List Char))) (hne : colspecs ≠ [])
    (hmin1 : ∀ cs ∈ colspecs, 1 ≤ cs.min_width)
    (hbudget : (colspecs.map (fun cs => cs.min_width)).sum +
      gap * (colspecs.length - 1) ≤ w)
    (hbranch : sumIdeal colspecs rows ≤ colSpace w 0 gap colspecs.length) :
    (solveWidths w 0 gap colspecs rows).sum + gap * (colspecs.length - 1) ≤ w := by
  have hmins1 : 1 ≤ (colspecs.map (fun cs => cs.min_width)).sum := by
    match colspecs, hne with
    | cs :: rest, _ =>
      have h1 := hmin1 cs (by simp)
      simp only [List.map_cons, List.sum_cons]
      omega
  have hcs : colSpace w 0 gap colspecs.length =
      w - gap * (colspecs.length - 1) := by
    unfold colSpace
    omega
  have hsum0 := underWidths0_sum_le colspecs rows
  have hfin : (solveWidths w 0 gap colspecs rows).sum ≤
      colSpace w 0 gap colspecs.length := by
    unfold solveWidths
    rw [if_pos hbranch]
    apply leftoverLoop_sum _ _ (wrapCols_lt colspecs) _ _ _ _
      (underWidths0_length colspecs rows)
    omega
  omega

/-- C1 witness: conservation at the spec's own scenario A (terminal 40,
gap 2, one rigid and one wrap column of minimum 10). -/
theorem solver_budget_under_witness :
    (([⟨"h1".toList, 10, none, false, true⟩, ⟨"h2".toList, 10, none, true, true⟩] :
        List ColSpec) ≠ [] ∧
      (∀ cs ∈ ([⟨"h1".toList, 10, none, false, true⟩,
        ⟨"h2".toList, 10, none, true, true⟩] : List ColSpec), 1 ≤ cs.min_width) ∧
      (([⟨"h1".toList, 10, none, false, true⟩, ⟨"h2".toList, 10, none, true, true⟩] :
        List ColSpec).map (fun cs => cs.min_width)).sum + 2 * (2 - 1) ≤ 40 ∧
      sumIdeal [⟨"h1".toList, 10, none, false, true⟩, ⟨"h2".toList, 10, none, true, true⟩]
          [[ "aa".toList, "bb".toList ]] ≤
        colSpace 40 0 2 2) ∧
    (solveWidths 40 0 2
        [⟨"h1".toList, 10, none, false, true⟩, ⟨"h2".toList, 10, none, true, true⟩]
        [[ "aa".toList, "bb".toList ]]).sum + 2 * (2 - 1) ≤ 40 :=
  ⟨⟨by decide, by decide, by decide, by decide⟩,
    solver_budget_under 40 2 _ _ (by decide) (by decide) (by decide) (by decide)⟩

/-- If no candidate column can move, the diff loop leaves the widths
untouched for any fuel. -/
theorem diffLoop_stuck (colspecs : List ColSpec) (candidates : List Nat)
    (ws : List Nat) (diff : Int)
    (hstuck : ∀ jj : Nat, diffOk colspecs ws
      (candidates.getD (jj % candidates.length) 0)
      (if 0 < diff then 1 else -1) = false) :
    ∀ (fuel j : Nat), diffLoop colspecs candidates fuel ws diff j = ws := by
  intro fuel
  induction fuel with
  | zero => intro j; rfl
  | succ n ih =>
    intro j
    unfold diffLoop
    by_cases hcond : (diff ≠ 0 ∧ colspecs.length ≠ 0)
    · rw [if_pos hcond]
      have hupd : diffUpd colspecs ws (candidates.getD (j % candidates.length) 0)
          (if 0 < diff then 1 else -1) = ws := by
        unfold diffUpd
        rw [hstuck j]
        simp
      rw [hupd, hstuck j]
      simp only [Bool.false_eq_true, if_false]
      split
      · rfl
      · exact ih (j + 1)
    · rw [if_neg hcond]

/-- C1 counterexample: terminal width 24, gap 2, three columns with minimum
widths 1, 10, 1 (sum 12 ≤ budget 20), but long content drives the solver
into the over-budget branch where only the wrap column (already pinned at
its minimum 1) is a shrink candidate: the loop hits its iteration cap and
returns widths [1, 10, 18], whose sum plus gaps is 33 > 24. -/
theorem solver_budget_counterexample :
    ((budgetCexSpecs.map (fun cs => cs.min_width)).sum +
        2 * (budgetCexSpecs.length - 1) ≤ 24) ∧
      ¬ ((solveWidths 24 0 2 budgetCexSpecs budgetCexRows).sum +
        2 * (budgetCexSpecs.length - 1) ≤ 24) := by
  have heval : solveWidths 24 0 2 budgetCexSpecs budgetCexRows = [1, 10, 18] := by
    unfold solveWidths
    rw [if_neg (by decide)]
    rw [show overCandidates budgetCexSpecs = [0] from by decide]
    rw [show overWidths0 24 0 2 budgetCexSpecs budgetCexRows = [1, 10, 18] from by decide]
    rw [show ((colSpace 24 0 2 budgetCexSpecs.length : Int) -
      (([1, 10, 18] : List Nat).sum : Nat)) = -9 from by decide]
    refine diffLoop_stuck budgetCexSpecs [0] [1, 10, 18] (-9) ?_ 10002 0
    intro jj
    rw [show ([0] : List Nat).length = 1 from rfl, Nat.mod_one]
    decide
  constructor
  · decide
  · rw [heval]
    decide

/-- C8: Confirm in Rows mode returns the row selection when no provider is
supplied or the provider yields an empty menu list (an empty list is "no
sub-menu", not an error); and the concrete scenario: 5 rows, four Downs from
row 0, then Enter with no provider yields ("row-selected", 4, None). -/
theorem confirm_rows_returns_row :
    (∀ (provider : Option (Nat → List (List Char))) (nrows cols : Nat)
      (s : SelState), s.mode = .rows →
      (provider = none ∨ ∃ f, provider = some f ∧ f s.sel_row = []) →
      gridIter provider nrows cols s .enter =
        .inr ("row-selected", some s.sel_row, none)) ∧
    runKeys none 5 3 initState [.down, .down, .down, .down, .enter] =
      .inr ("row-selected", some 4, none) := by
  constructor
  · intro provider nrows cols s hmode hprov
    obtain ⟨r, m, ss, it, pc⟩ := s
    simp only at hmode
    subst hmode
    rcases hprov with hp | ⟨f, hp, hf⟩
    · subst hp
      rfl
    · subst hp
      simp only at hf
      rw [show gridIter (some f) nrows cols ⟨r, .rows, ss, it, pc⟩ .enter =
        (if f r = [] then .inr ("row-selected", some r, none)
         else .inl ⟨r, .submenu, 0, f r, pc + 1⟩) from rfl, if_pos hf]
  · decide

/-- C8 witness: the confirmation law applied at a concrete state. -/
theorem confirm_rows_returns_row_witness :
    ((⟨4, .rows, 0, [], 0⟩ : SelState).mode = .rows ∧
      ((none : Option (Nat → List (List Char))) = none ∨
        ∃ f, (none : Option (Nat → List (List Char))) = some f ∧
          f (⟨4, .rows, 0, [], 0⟩ : SelState).sel_row = [])) ∧
    gridIter none 5 3 (⟨4, .rows, 0, [], 0⟩ : SelState) .enter =
      .inr ("row-selected", some (⟨4, .rows, 0, [], 0⟩ : SelState).sel_row, none) :=
  ⟨⟨rfl, Or.inl rfl⟩,
    confirm_rows_returns_row.1 none 5 3 ⟨4, .rows, 0, [], 0⟩ rfl (Or.inl rfl)⟩

/-- C2 counterexample: in the curses `grid_select` of `shai/ui/table.py`,
pressing Right on the last of 4 sub-menu items leaves the sub-index at 3
(clamped), not wrapped to 0 as the claim states. -/
theorem submenu_right_clamps_counterexample :
    (match gridIter (some (fun _ => [['a'], ['b'], ['c'], ['d']])) 5 2
        (⟨2, .submenu, 3, [['a'], ['b'], ['c'], ['d']], 0⟩ : SelState) .right with
     | .inl s2 => s2.sel_sub
     | .inr _ => 99) = 3 ∧ (3 : Nat) ≠ 0 := by
  constructor
  · decide
  · decide

/-- C2 (amended): row navigation clamps in the curses machine (`table.py`):
Down on the last row stays there; but its sub-menu Right also clamps at the
last item rather than wrapping.  The circular modulo behaviour the claim
describes belongs to the alternate `grid_select` of `shai/ui/select.py`,
whose Right step is `(sel+1) % len(opts)`: from the last item it wraps to 0,
and with 4 items five Rights from 0 visit 1, 2, 3, 0, 1. -/
theorem navigation_clamp_wrap :
    (∀ (provider : Option (Nat → List (List Char))) (nrows cols : Nat)
      (s : SelState), s.mode = .rows → s.sel_row = nrows - 1 →
      gridIter provider nrows cols s .down = .inl s) ∧
    (∀ (f : Nat → List (List Char)) (nrows cols : Nat) (s : SelState),
      s.mode = .submenu → s.sel_sub = (f s.sel_row).length - 1 →
      gridIter (some f) nrows cols s .right =
        .inl { s with submenu_items := f s.sel_row
                      provider_calls := s.provider_calls + 1 }) ∧
    (∀ nopts : Nat, 1 ≤ nopts → selectSubRight nopts (nopts - 1) = 0) ∧
    [selectSubRight 4 0,
     selectSubRight 4 (selectSubRight 4 0),
     selectSubRight 4 (selectSubRight 4 (selectSubRight 4 0)),
     selectSubRight 4 (selectSubRight 4 (selectSubRight 4 (selectSubRight 4 0))),
     selectSubRight 4 (selectSubRight 4 (selectSubRight 4 (selectSubRight 4
       (selectSubRight 4 0))))] = [1, 2, 3, 0, 1] := by
  refine ⟨?_, ?_, ?_, by decide⟩
  · intro provider nrows cols s hmode hrow
    obtain ⟨r, m, ss, it, pc⟩ := s
    simp only at hmode hrow
    subst hmode
    subst hrow
    rw [show gridIter provider nrows cols ⟨nrows - 1, .rows, ss, it, pc⟩ .down =
      .inl ⟨min (nrows - 1) (nrows - 1 + 1), .rows, ss, it, pc⟩ from rfl]
    rw [show min (nrows - 1) (nrows - 1 + 1) = nrows - 1 from by omega]
  · intro f nrows cols s hmode hsub
    obtain ⟨r, m, ss, it, pc⟩ := s
    simp only at hmode hsub
    subst hmode
    subst hsub
    rw [show gridIter (some f) nrows cols
        ⟨r, .submenu, (f r).length - 1, it, pc⟩ .right =
      .inl ⟨r, .submenu, min ((f r).length - 1) ((f r).length - 1 + 1),
        f r, pc + 1⟩ from rfl]
    rw [show min ((f r).length - 1) ((f r).length - 1 + 1) =
      (f r).length - 1 from by omega]
  · intro nopts h
    unfold selectSubRight
    rw [Nat.sub_add_cancel h]
    exact Nat.mod_self nopts

/-- C2 witness: the clamp and wrap laws applied at concrete states. -/
theorem navigation_clamp_wrap_witness :
    ((⟨4, .rows, 0, [], 0⟩ : SelState).mode = .rows ∧
      (⟨4, .rows, 0, [], 0⟩ : SelState).sel_row = 5 - 1 ∧
      (⟨2, .submenu, 3, [], 0⟩ : SelState).mode = .submenu ∧
      (⟨2, .submenu, 3, [], 0⟩ : SelState).sel_sub =
        ((fun _ => [['a'], ['b'], ['c'], ['d']]) (⟨2, .submenu, 3, [], 0⟩ : SelState).sel_row).length - 1 ∧
      1 ≤ 4) ∧
    gridIter none 5 3 (⟨4, .rows, 0, [], 0⟩ : SelState) .down =
      .inl (⟨4, .rows, 0, [], 0⟩ : SelState) ∧
    gridIter (some (fun _ => [['a'], ['b'], ['c'], ['d']])) 5 3
        (⟨2, .submenu, 3, [], 0⟩ : SelState) .right =
      .inl { (⟨2, .submenu, 3, [], 0⟩ : SelState) with
             submenu_items := (fun _ => [['a'], ['b'], ['c'], ['d']])
               (⟨2, .submenu, 3, [], 0⟩ : SelState).sel_row
             provider_calls := (⟨2, .submenu, 3, [], 0⟩ : SelState).provider_calls + 1 } ∧
    selectSubRight 4 (4 - 1) = 0 :=
  ⟨⟨rfl, rfl, rfl, rfl, by decide⟩,
    navigation_clamp_wrap.1 none 5 3 ⟨4, .rows, 0, [], 0⟩ rfl rfl,
    navigation_clamp_wrap.2.1 (fun _ => [['a'], ['b'], ['c'], ['d']]) 5 3
      ⟨2, .submenu, 3, [], 0⟩ rfl rfl,
    navigation_clamp_wrap.2.2.1 4 (by decide)⟩

/-- C4 counterexample: with a provider supplied, two successive poll-timeout
iterations while the machine stays in Submenu mode (no transition at all)
invoke the provider twice — the render phase re-fetches the menu every
iteration, contradicting "at most once per Rows→Submenu transition". -/
theorem provider_refetch_counterexample :
    (match runKeys (some (fun _ => [['a'], ['b']])) 5 3
        (⟨2, .submenu, 0, [['a'], ['b']], 0⟩ : SelState) [.timeout, .timeout] with
     | .inl s2 => s2.provider_calls
     | .inr _ => 0) = 2 := by
  decide

/-- C4 (amended): the row-menu provider is invoked on the Rows→Submenu
transition and then once more on every render iteration the machine spends
in Submenu mode (line 250 re-fetches each frame); in Rows mode a render
iteration makes no provider call. -/
theorem provider_called_each_submenu_render :
    ∀ (f : Nat → List (List Char)) (nrows cols : Nat) (s : SelState),
      (s.mode = .submenu →
        gridIter (some f) nrows cols s .timeout =
          .inl { s with submenu_items := f s.sel_row
                        provider_calls := s.provider_calls + 1 }) ∧
      (s.mode = .rows →
        gridIter (some f) nrows cols s .timeout = .inl s) := by
  intro f nrows cols s
  constructor
  · intro hmode
    obtain ⟨r, m, ss, it, pc⟩ := s
    simp only at hmode
    subst hmode
    rfl
  · intro hmode
    obtain ⟨r, m, ss, it, pc⟩ := s
    simp only at hmode
    subst hmode
    rfl

/-- C4 witness: one Submenu render iteration increments the provider-call
count by exactly one at a concrete state. -/
theorem provider_called_each_submenu_render_witness :
    ((⟨1, .submenu, 0, [], 7⟩ : SelState).mode = .submenu) ∧
    gridIter (some (fun _ => [['x']])) 4 3 (⟨1, .submenu, 0, [], 7⟩ : SelState)
        .timeout =
      .inl { (⟨1, .submenu, 0, [], 7⟩ : SelState) with
             submenu_items := (fun _ => [['x']]) (⟨1, .submenu, 0, [], 7⟩ : SelState).sel_row
             provider_calls := (⟨1, .submenu, 0, [], 7⟩ : SelState).provider_calls + 1 } :=
  ⟨rfl, (provider_called_each_submenu_render (fun _ => [['x']]) 4 3
    ⟨1, .submenu, 0, [], 7⟩).1 rfl⟩

/-- C9: style-callback fault isolation.  If the cell-level callback raises
on a cell, the computed attribute equals the one computed with no cell-level
callback at all (other contributions unchanged); likewise for the line-level
callback; a raising callback never aborts the attribute computation, which
is total. -/
theorem style_callback_fault_isolated (normal_attr highlight_attr : Nat)
    (f : Nat → Nat → List Char → Except Unit Nat)
    (g : Nat → Nat → Nat → List Char → Except Unit Nat)
    (lsf : Option (Nat → Nat → Nat → List Char → Except Unit Nat))
    (sf : Option (Nat → Nat → List Char → Except Unit Nat))
    (hr : Option Nat) (hc : Option (Nat × Nat)) (i j k : Nat)
    (cellText lineText : List Char) :
    (f i j cellText = .error () →
      cellAttr normal_attr highlight_attr (some f) lsf hr hc i j k cellText lineText =
        cellAttr normal_attr highlight_attr none lsf hr hc i j k cellText lineText) ∧
    (g i j k lineText = .error () →
      cellAttr normal_attr highlight_attr sf (some g) hr hc i j k cellText lineText =
        cellAttr normal_attr highlight_attr sf none hr hc i j k cellText lineText) := by
  constructor
  · intro herr
    unfold cellAttr withCellStyle
    simp only
    rw [herr]
  · intro herr
    unfold cellAttr withLineStyle
    simp only
    rw [herr]

/-- C9 witness: fault isolation at concrete always-raising callbacks. -/
theorem style_callback_fault_isolated_witness :
    ((fun (_ _ : Nat) (_ : List Char) => (.error () : Except Unit Nat)) 0 1 [] =
        .error () ∧
      (fun (_ _ _ : Nat) (_ : List Char) => (.error () : Except Unit Nat)) 0 1 0 [] =
        .error ()) ∧
    cellAttr 2 8 (some (fun _ _ _ => .error ())) none (some 3) none 0 1 0 [] [] =
      cellAttr 2 8 none none (some 3) none 0 1 0 [] [] ∧
    cellAttr 2 8 none (some (fun _ _ _ _ => .error ())) (some 3) none 0 1 0 [] [] =
      cellAttr 2 8 none none (some 3) none 0 1 0 [] [] :=
  ⟨⟨rfl, rfl⟩,
    (style_callback_fault_isolated 2 8 (fun _ _ _ => .error ())
      (fun _ _ _ _ => .error ()) none none (some 3) none 0 1 0 [] []).1 rfl,
    (style_callback_fault_isolated 2 8 (fun _ _ _ => .error ())
      (fun _ _ _ _ => .error ()) none none (some 3) none 0 1 0 [] []).2 rfl⟩

theorem splitLinesF_chars : ∀ (n : Nat) (s : List Char),
    ∀ l ∈ splitLinesF n s, ∀ c ∈ l, c ∈ s := by
  intro n
  induction n with
  | zero => intro s l hl; simp [splitLinesF] at hl
  | succ n ih =>
    intro s l hl c hc
    match s with
    | [] => simp [splitLinesF] at hl
    | a :: tl =>
      unfold splitLinesF at hl
      rcases List.mem_cons.mp hl with h1 | h2
      · subst h1
        exact (List.takeWhile_sublist _).mem hc
      · match hdrop : (a :: tl).dropWhile (fun c => !(c = '\n')) with
        | [] =>
          rw [hdrop] at h2
          simp at h2
        | d :: rest =>
          rw [hdrop] at h2
          have hcrest := ih rest l h2 c hc
          have : c ∈ d :: rest := by simp [hcrest]
          rw [← hdrop] at this
          exact (List.dropWhile_sublist _).mem this

theorem splitWs_chars (s : List Char) :
    ∀ w ∈ splitWs s, ∀ c ∈ w, c ∈ s := by
  have key : ∀ (n : Nat) (s : List Char), s.length ≤ n →
      ∀ w ∈ splitWs s, ∀ c ∈ w, c ∈ s := by
    intro n
    induction n with
    | zero =>
      intro s hs
      rw [List.length_eq_zero.mp (Nat.le_zero.mp hs), splitWs_nil]
      simp
    | succ n ih =>
      intro s hs w hw c hc
      match s with
      | [] => rw [splitWs_nil] at hw; simp at hw
      | a :: tl =>
        rw [splitWs_cons] at hw
        simp only [List.length_cons] at hs
        by_cases ha : isWs a = true
        · rw [if_pos ha] at hw
          exact List.mem_cons_of_mem a (ih tl (by omega) w hw c hc)
        · rw [if_neg ha] at hw
          rcases List.mem_cons.mp hw with h1 | h2
          · subst h1
            rcases List.mem_cons.mp hc with hc1 | hc2
            · simp [hc1]
            · exact List.mem_cons_of_mem a ((List.takeWhile_sublist _).mem hc2)
          · have hdl : (tl.dropWhile (fun d => !isWs d)).length ≤ tl.length :=
              length_dropWhile_le _ _
            have := ih (tl.dropWhile (fun d => !isWs d)) (by omega) w h2 c hc
            exact List.mem_cons_of_mem a ((List.dropWhile_sublist _).mem this)
  exact key s.length s (Nat.le_refl _)

/-- One wrapper step only moves characters of its inputs, plus spaces. -/
theorem wrapStep_chars (W : Nat) (st : List (List Char) × List Char × Nat)
    (w : List Char) (P : Char → Prop)
    (hl : ∀ l ∈ st.1, ∀ c ∈ l, P c) (hcur : ∀ c ∈ st.2.1, P c)
    (hw : ∀ c ∈ w, P c) (hsp : P ' ') :
    (∀ l ∈ (wrapStep W st w).1, ∀ c ∈ l, P c) ∧
      (∀ c ∈ (wrapStep W st w).2.1, P c) := by
  obtain ⟨lines, cur, clen⟩ := st
  simp only at hl hcur
  unfold wrapStep
  simp only
  by_cases hcond : clen + ((if cur = [] then 0 else 1) + visLen w) ≤ W
  · rw [if_pos hcond]
    by_cases hc : cur = []
    · rw [if_pos hc]
      exact ⟨hl, hw⟩
    · rw [if_neg hc]
      refine ⟨hl, ?_⟩
      intro c hc2
      rcases List.mem_append.mp hc2 with h1 | h2
      · exact hcur c h1
      · rcases List.mem_cons.mp h2 with h3 | h4
        · rw [h3]; exact hsp
        · exact hw c h4
  · rw [if_neg hcond]
    constructor
    · intro l hl2
      rcases List.mem_append.mp hl2 with h1 | h2
      · exact hl l h1
      · rw [List.mem_singleton.mp h2]
        exact hcur
    · exact hw

/-- Characters of the wrapper output come from the text or are spaces. -/
theorem wrapVisible_chars (t : List Char) (W : Nat) :
    ∀ l ∈ wrapVisible t W, ∀ c ∈ l, c ∈ t ∨ c = ' ' := by
  have hfold : ∀ (toks : List (List Char))
      (st : List (List Char) × List Char × Nat),
      (∀ w ∈ toks, ∀ c ∈ w, c ∈ t ∨ c = ' ') →
      ((∀ l ∈ st.1, ∀ c ∈ l, c ∈ t ∨ c = ' ') ∧ (∀ c ∈ st.2.1, c ∈ t ∨ c = ' ')) →
      (∀ l ∈ (toks.foldl (wrapStep W) st).1, ∀ c ∈ l, c ∈ t ∨ c = ' ') ∧
        (∀ c ∈ (toks.foldl (wrapStep W) st).2.1, c ∈ t ∨ c = ' ') := by
    intro toks
    induction toks with
    | nil => intro st htoks hst; exact hst
    | cons w rest ih =>
      intro st htoks hst
      rw [List.foldl_cons]
      apply ih _ (fun x hx => htoks x (by simp [hx]))
      exact wrapStep_chars W st w _ hst.1 hst.2 (htoks w (by simp)) (Or.inr rfl)
  intro l hl c hc
  unfold wrapVisible at hl
  split at hl
  · rw [List.mem_singleton.mp hl] at hc
    simp at hc
  · have hres := hfold (splitWs t) ([], [], 0)
      (fun w hw c hc => Or.inl (splitWs_chars t w hw c hc))
      (by constructor <;> simp)
    unfold wrapFinish at hl
    split at hl
    · split at hl
      · rw [List.mem_singleton.mp hl] at hc
        simp at hc
      · exact hres.1 l hl c hc
    · rcases List.mem_append.mp hl with h1 | h2
      · exact hres.1 l h1 c hc
      · rw [List.mem_singleton.mp h2] at hc
        exact hres.2 c hc

/-- Characters of the pop loop output come from its input tokens. -/
theorem popLoopF_chars : ∀ (fuel w : Nat) (out : List Tok),
    ∀ c ∈ flattenToks (popLoopF fuel w out), c ∈ flattenToks out := by
  intro fuel
  induction fuel with
  | zero => intro w out c hc; exact hc
  | succ n ih =>
    intro w out c hc
    unfold popLoopF at hc
    split at hc
    · rename_i hcond
      have hdl := ih w out.dropLast c hc
      have hsplit := List.dropLast_append_getLast hcond.1
      rw [← hsplit, flattenToks_append]
      exact List.mem_append_left _ hdl
    · exact hc

/-- Characters of `crop_visible` output come from the input or are the
ellipsis glyph. -/
theorem cropVisible_chars (s : List Char) (w : Nat) (e : Bool) :
    ∀ c ∈ cropVisible s w e, c ∈ s ∨ c = ellipsisChar := by
  intro c hc
  unfold cropVisible at hc
  split at hc
  · simp at hc
  · obtain ⟨q, hq⟩ := cropLoop_prefix w (tokenize s) 0
    have hsub : ∀ x, x ∈ flattenToks (cropLoop w (tokenize s) 0) → x ∈ s := by
      intro x hx
      have : x ∈ flattenToks (cropLoop w (tokenize s) 0 ++ q) := by
        rw [flattenToks_append]
        exact List.mem_append_left _ hx
      rw [hq, flattenToks_tokenize] at this
      exact this
    split at hc
    · rcases List.mem_append.mp hc with h1 | h2
      · left
        exact hsub c (popLoopF_chars _ w _ c h1)
      · right
        exact List.mem_singleton.mp h2
    · left
      exact hsub c hc

theorem ljustVisible_chars (s : List Char) (w : Nat) :
    ∀ c ∈ ljustVisible s w, c ∈ s ∨ c = ' ' := by
  intro c hc
  unfold ljustVisible at hc
  rcases List.mem_append.mp hc with h1 | h2
  · left; exact h1
  · right; exact (List.mem_replicate.mp h2).2

theorem space_ne_esc : (' ' : Char) ≠ escChar := by decide

theorem ellipsis_ne_esc : ellipsisChar ≠ escChar := by decide

theorem newline_ne_esc : ('\n' : Char) ≠ escChar := by decide

/-- C10 counterexample: a header containing an ANSI color sequence is drawn
raw — `crop_visible` passes escapes through, so the drawn header row does
contain an escape sequence, contradicting "every display line it produces
and draws contains no escape sequence". -/
theorem header_ansi_counterexample :
    ¬ noEsc (drawnHeader
      ⟨escChar :: '[' :: '3' :: '1' :: 'm' :: ['X'], 4, none, true, true⟩ 5) := by
  decide

/-- C10 (amended): each cell's text is ANSI-stripped once before wrapping or
cropping, and whenever that single-pass strip leaves no ESC character (true
of every cell except pathological nested/unterminated sequences), every cell
display line produced and drawn is escape-free.  The drawn header row,
however, uses the raw header string through `crop_visible`, which preserves
escape sequences — caller styling embedded in headers does reach the
output. -/
theorem cell_lines_ansi_free (cs : ColSpec) (width : Nat) (cell : List Char)
    (h : noEsc (stripAnsi cell)) :
    (∀ l ∈ cellLines cs width cell, noEsc l) ∧
    (∀ k, noEsc (drawnCellLine cs width (cellLines cs width cell) k)) := by
  have hlines : ∀ l ∈ cellLines cs width cell, noEsc l := by
    intro l hl c hc
    unfold cellLines at hl
    split at hl
    · split at hl
      · rw [List.mem_singleton.mp hl] at hc
        simp at hc
      · obtain ⟨part, hpart, hlp⟩ := List.mem_flatMap.mp hl
        rcases wrapVisible_chars part width l hlp c hc with h1 | h2
        · exact h c (splitLinesF_chars _ _ part hpart c h1)
        · rw [h2]; exact space_ne_esc
    · rw [List.mem_singleton.mp hl] at hc
      rcases ljustVisible_chars _ width c hc with h1 | h2
      · rcases cropVisible_chars _ width _ c h1 with h3 | h4
        · exact h c h3
        · rw [h4]; exact ellipsis_ne_esc
      · rw [h2]; exact space_ne_esc
  refine ⟨hlines, ?_⟩
  intro k c hc
  have hget : noEsc ((cellLines cs width cell).getD k []) := by
    by_cases hk : k < (cellLines cs width cell).length
    · rw [List.getD_eq_getElem _ _ hk]
      apply hlines
      exact List.getElem_mem _
    · rw [List.getD_eq_getElem?_getD, List.getElem?_eq_none (by omega)]
      intro x hx
      simp at hx
  unfold drawnCellLine at hc
  split at hc
  · rcases ljustVisible_chars _ width c hc with h1 | h2
    · exact hget c h1
    · rw [h2]; exact space_ne_esc
  · rcases ljustVisible_chars _ width c hc with h1 | h2
    · rcases cropVisible_chars _ width _ c h1 with h3 | h4
      · exact hget c h3
      · rw [h4]; exact ellipsis_ne_esc
    · rw [h2]; exact space_ne_esc

/-- C10 witness: an ANSI-styled cell renders to escape-free display lines. -/
theorem cell_lines_ansi_free_witness :
    noEsc (stripAnsi (escChar :: '[' :: '3' :: '1' :: 'm' :: "ab cd".toList)) ∧
    ((∀ l ∈ cellLines ⟨"h".toList, 2, none, true, true⟩ 3
        (escChar :: '[' :: '3' :: '1' :: 'm' :: "ab cd".toList), noEsc l) ∧
      (∀ k, noEsc (drawnCellLine ⟨"h".toList, 2, none, true, true⟩ 3
        (cellLines ⟨"h".toList, 2, none, true, true⟩ 3
          (escChar :: '[' :: '3' :: '1' :: 'm' :: "ab cd".toList)) k))) :=
  ⟨by decide, cell_lines_ansi_free ⟨"h".toList, 2, none, true, true⟩ 3
    (escChar :: '[' :: '3' :: '1' :: 'm' :: "ab cd".toList) (by decide)⟩

end Shai
